import Mathlib

/-!
# Verification of the figmazing event bridge

Shallow embedding of `packages/event/src/index.ts`: a typed publish/subscribe
event bridge between the privileged ("main") and UI contexts of a Figma
plugin.  The registry is a record from numeric-string ids to
`{ name, handler }` entries; ids come from a monotonically increasing
counter, so JavaScript's integer-keyed property order (ascending) makes the
`for (const id in eventHandlers)` dispatch loop visit entries in
registration order, and a key deleted before being visited is skipped.

We model the registry as an association list `List (Nat × Entry)` kept in
ascending id order (the for-in order), and dispatch as a fold over a
snapshot of the ids, looking each id up again at its turn (a key deleted
mid-pass is skipped; an already-visited key is never revisited).

Handlers are embedded symbolically: a handler records its `tag` and the
payload into an invocation log and may unsubscribe a fixed set of ids
(the effects the claims are about).  A `once` registration is the source's
wrapper closure: a `done` flag stored with the entry; a fired wrapper stays
registered and becomes inert.
-/

/-- JavaScript values, as far as the transport layer inspects them. -/
inductive JValue where
  | undef : JValue
  | null : JValue
  | bool : Bool → JValue
  | num : Int → JValue
  | str : String → JValue
  | arr : List JValue → JValue
  | obj : List (String × JValue) → JValue

/-- A registry entry: `eventHandlers[id] = { handler, name }`.  The handler
closure is represented by its observable effects: `tag` identifies the
user-supplied function (its invocations are logged), `unsubs` is the set of
registration ids the function unsubscribes when it runs.  For a `once`
registration, `once = true` and `done` is the wrapper closure's flag. -/
structure Entry where
  name : String
  once : Bool
  done : Bool
  tag : Nat
  unsubs : List Nat
deriving Repr, DecidableEq

/-- The module-level bridge state: the `eventHandlers` record (as an
association list in ascending-id = for-in order), the `currentId` counter,
the log of handler invocations `(id, tag, payload)` in invocation order,
and the `console.warn` diagnostics emitted so far. -/
structure BridgeState where
  handlers : List (Nat × Entry)
  currentId : Nat
  log : List (Nat × Nat × JValue)
  warnings : List String

namespace Bridge

/-- The source's `event(name).on(handler)` and `.once(handler)`: allocate the
next id, store the entry, bump the counter.  Returns the new state and the
id (the returned unsubscribe closure deletes exactly that id). -/
def register (s : BridgeState) (name : String) (isOnce : Bool) (tag : Nat)
    (unsubs : List Nat) : BridgeState × Nat :=
  ({ s with
      handlers := s.handlers ++ [(s.currentId,
        { name := name, once := isOnce, done := false, tag := tag, unsubs := unsubs })]
      currentId := s.currentId + 1 },
   s.currentId)

/-- The unsubscribe closure returned by `on`: `delete eventHandlers[id]`. -/
def unsub (s : BridgeState) (id : Nat) : BridgeState :=
  { s with handlers := s.handlers.filter (fun q => q.1 ≠ id) }

/-- Look a registration id up in the record. -/
def lookupEntry (hs : List (Nat × Entry)) (id : Nat) : Option Entry :=
  (hs.find? (fun q => q.1 = id)).map Prod.snd

/-- Set the `done` flag of the wrapper closure stored at `id`. -/
def setDone (hs : List (Nat × Entry)) (id : Nat) : List (Nat × Entry) :=
  hs.map (fun q => if q.1 = id then (q.1, { q.2 with done := true }) else q)

/-- Delete a set of registration ids (the unsubscribe calls a handler makes). -/
def removeIds (hs : List (Nat × Entry)) (ids : List Nat) : List (Nat × Entry) :=
  hs.filter (fun q => q.1 ∉ ids)

/-- Run the stored handler of entry `e` (registered at `id`) on `payload`:
the body of `eventHandlers[id].handler(payload)`.  A plain handler records
its invocation and performs its unsubscribes; a `once` wrapper first checks
its `done` flag (inert if set), otherwise sets it and runs the inner
handler. -/
def fire (s : BridgeState) (id : Nat) (e : Entry) (payload : JValue) : BridgeState :=
  if e.once then
    if e.done then s
    else
      { s with
          handlers := removeIds (setDone s.handlers id) e.unsubs
          log := s.log ++ [(id, e.tag, payload)] }
  else
    { s with
        handlers := removeIds s.handlers e.unsubs
        log := s.log ++ [(id, e.tag, payload)] }

/-- The `for (const id in eventHandlers)` loop of `invokeEventHandler`,
run over a snapshot of the record's keys (ascending id order).  At each
key the entry is looked up again: a key deleted by an earlier handler in
the same pass is skipped; a matching entry's handler runs and the
`invoked` flag is set. -/
def dispatchLoop (name : String) (payload : JValue) :
    List Nat → BridgeState → Bool → BridgeState × Bool
  | [], s, inv => (s, inv)
  | id :: ids, s, inv =>
    match lookupEntry s.handlers id with
    | none => dispatchLoop name payload ids s inv
    | some e =>
      if e.name = name then
        dispatchLoop name payload ids (fire s id e payload) true
      else
        dispatchLoop name payload ids s inv

/-- The `console.warn` message emitted when no handler matched. -/
def noHandlerWarning (name : String) : String :=
  "No event handler with name `" ++ name ++ "`"

/-- The source's `invokeEventHandler(name, payload)`: run every registered handler whose
name matches, in for-in (= ascending id = registration) order; if none was
invoked, warn. -/
def invokeEventHandler (s : BridgeState) (name : String) (payload : JValue) :
    BridgeState :=
  let r := dispatchLoop name payload (s.handlers.map Prod.fst) s false
  if r.2 then r.1
  else { r.1 with warnings := r.1.warnings ++ [noHandlerWarning name] }

/-- A sequence of inbound dispatches, applied in order. -/
def dispatchSeq : List (String × JValue) → BridgeState → BridgeState
  | [], s => s
  | (n, p) :: evs, s => dispatchSeq evs (invokeEventHandler s n p)

/-- The log entries a dispatch (or any state transformer that appends to
the log) added on top of the starting state's log. -/
def logDelta (s s' : BridgeState) : List (Nat × Nat × JValue) :=
  s'.log.drop s.log.length

/-- Well-formedness of the bridge state, maintained by every operation:
the record's keys are strictly ascending (JavaScript's integer-keyed
property order for ids allocated from the counter), and both the keys and
the ids recorded in the invocation log are below the counter (every id
ever used came from the counter). -/
def WF (s : BridgeState) : Prop :=
  (s.handlers.map Prod.fst).Sorted (· < ·) ∧ (∀ q ∈ s.handlers, q.1 < s.currentId) ∧
    ∀ r ∈ s.log, r.1 < s.currentId

end Bridge

/-! ## Transport layer

`emit` posts an envelope `[name, payload]` on the channel picked by probing
`typeof window` at call time; the inbound listeners installed by
`initEventHandlers` validate and unwrap arriving messages and feed
`invokeEventHandler`. -/

/-- Which of the two isolated contexts the code runs in: `typeof window`
undefined (privileged main sandbox) or defined (iframe UI). -/
inductive Side where
  | privileged : Side
  | ui : Side
deriving Repr, DecidableEq

/-- The native outbound channel an emission is written to. -/
inductive Channel where
  | toUI : Channel
  | toParent : Channel
deriving Repr, DecidableEq

/-- An outbound posting: which native primitive was called and with what
message body. -/
structure OutMessage where
  channel : Channel
  body : JValue

namespace Bridge

/-- The source's `event(name).emit(payload)`: probes `typeof window` at each call.
Privileged side: `figma.ui.postMessage([name, payload])`.  UI side:
`window.parent.postMessage({ pluginMessage: [name, payload] }, '*')`. -/
def emitMessage (env : Side) (name : String) (payload : JValue) : OutMessage :=
  match env with
  | .privileged => ⟨.toUI, .arr [.str name, payload]⟩
  | .ui => ⟨.toParent, .obj [("pluginMessage", .arr [.str name, payload])]⟩

/-- First-match field lookup on an object's own properties. -/
def getField : List (String × JValue) → String → Option JValue
  | [], _ => none
  | (k, v) :: fs, key => if k = key then some v else getField fs key

/-- JavaScript property access `v.key`: throws a `TypeError` on `null` or
`undefined`, yields `undefined` on primitives and missing fields. -/
def jsGetProp (v : JValue) (key : String) : Except Unit JValue :=
  match v with
  | .null => .error ()
  | .undef => .error ()
  | .obj fields => .ok ((getField fields key).getD .undef)
  | _ => .ok (.undef)

/-- The privileged-side inbound listener `figma.ui.onmessage` installed by
`initEventHandlers`: requires an array of length ≥ 1 whose first element is
a string; otherwise returns silently.  `payload` is `args[1]` when present,
`undefined` otherwise. -/
def mainOnMessage (s : BridgeState) (args : JValue) : BridgeState :=
  match args with
  | .arr (x :: rest) =>
    match x with
    | .str n => invokeEventHandler s n (rest.headD .undef)
    | _ => s
  | _ => s

/-- The UI-side inbound listener `window.onmessage`: reads
`event.data.pluginMessage` (a property access that throws on nullish
`data`), returns silently when it is `undefined`, then validates the
unwrapped envelope like the privileged side. -/
def uiOnMessage (s : BridgeState) (data : JValue) : Except Unit BridgeState :=
  match jsGetProp data "pluginMessage" with
  | .error _ => .error ()
  | .ok pm =>
    match pm with
    | .undef => .ok s
    | .arr (x :: rest) =>
      match x with
      | .str n => .ok (invokeEventHandler s n (rest.headD .undef))
      | _ => .ok s
    | _ => .ok s

/-- The Figma host's delivery of a UI-side posting to the privileged
listener: the host unwraps the reserved `pluginMessage` field and hands its
value to `figma.ui.onmessage`.  (Host behavior, not repository code.) -/
def hostUnwrapForMain (body : JValue) : JValue :=
  match body with
  | .obj fields => (getField fields "pluginMessage").getD .undef
  | _ => (.undef)

/-- The Figma host's delivery of a privileged-side posting to the UI
iframe: the host wraps the posted message in an event whose `data` carries
it under the reserved `pluginMessage` field.  (Host behavior, not
repository code.) -/
def hostWrapForUI (body : JValue) : JValue :=
  .obj [("pluginMessage", body)]

end Bridge

/-! ## Lifecycle guard -/

/-- Process-wide initialization state: the `isInitialized` flag, how many
times a listener-installation assignment has executed, and which side's
listener the last installation wired. -/
structure ProcState where
  initialized : Bool
  installCount : Nat
  installedSide : Option Side
deriving Repr, DecidableEq

namespace Bridge

/-- The fresh process state before any initialization. -/
def procInit : ProcState := ⟨false, 0, none⟩

/-- The source's `initEventHandlers()`: a no-op once `isInitialized` is set; on first
call, probes `typeof window` and installs the matching side's inbound
listener, then sets the flag. -/
def initEventHandlers (env : Side) (p : ProcState) : ProcState :=
  if p.initialized then p
  else { initialized := true, installCount := p.installCount + 1, installedSide := some env }

/-- The source's `createEventSystem()` runtime effect: it calls `initEventHandlers()`
and otherwise only returns closures over the shared module state. -/
def createEventSystem (env : Side) (p : ProcState) : ProcState :=
  initEventHandlers env p

/-! ## Registry lemmas -/

theorem lookupEntry_mem {hs : List (Nat × Entry)} {i : Nat} {e : Entry}
    (h : lookupEntry hs i = some e) : (i, e) ∈ hs := by
  unfold lookupEntry at h
  rcases Option.map_eq_some'.mp h with ⟨q, hq, h2⟩
  have hmem := List.mem_of_find?_eq_some hq
  have hqid : q.1 = i := by simpa using List.find?_some hq
  rcases q with ⟨j, e'⟩
  simp only at h2 hqid
  subst h2
  subst hqid
  exact hmem

theorem lookupEntry_of_mem {hs : List (Nat × Entry)} {i : Nat} {e : Entry}
    (hnd : (hs.map Prod.fst).Nodup) (h : (i, e) ∈ hs) :
    lookupEntry hs i = some e := by
  induction hs with
  | nil => simp at h
  | cons q hs ih =>
    rcases q with ⟨j, ej⟩
    simp only [List.map_cons, List.nodup_cons] at hnd
    rcases List.mem_cons.mp h with h1 | h1
    · rw [Prod.ext_iff] at h1
      obtain ⟨h1a, h1b⟩ := h1
      simp only at h1a h1b
      subst h1a
      subst h1b
      unfold lookupEntry
      rw [List.find?_cons_of_pos _ (by simp)]
      rfl
    · have hj : j ≠ i := by
        intro hji
        apply hnd.1
        rw [hji]
        exact List.mem_map_of_mem Prod.fst h1
      unfold lookupEntry
      rw [List.find?_cons_of_neg _ (by simp [hj])]
      exact ih hnd.2 h1

theorem lookupEntry_eq_none {hs : List (Nat × Entry)} {i : Nat} :
    lookupEntry hs i = none ↔ i ∉ hs.map Prod.fst := by
  unfold lookupEntry
  simp only [Option.map_eq_none', List.find?_eq_none, List.mem_map]
  constructor
  · rintro h ⟨q, hq, rfl⟩
    exact (by simpa using h q hq)
  · intro h q hq
    simp only [decide_eq_true_eq]
    intro hq1
    exact h ⟨q, hq, hq1⟩

theorem setDone_map_fst (hs : List (Nat × Entry)) (id : Nat) :
    (setDone hs id).map Prod.fst = hs.map Prod.fst := by
  unfold setDone
  rw [List.map_map]
  congr 1
  funext q
  by_cases h : q.1 = id <;> simp [h]

theorem removeIds_sublist (hs : List (Nat × Entry)) (ids : List Nat) :
    (removeIds hs ids).Sublist hs :=
  List.filter_sublist hs

theorem mem_removeIds {hs : List (Nat × Entry)} {ids : List Nat} {q : Nat × Entry} :
    q ∈ removeIds hs ids ↔ q ∈ hs ∧ q.1 ∉ ids := by
  unfold removeIds
  simp [List.mem_filter]

theorem mem_setDone_of_ne {hs : List (Nat × Entry)} {id : Nat} {q : Nat × Entry}
    (hq : q ∈ hs) (hne : q.1 ≠ id) : q ∈ setDone hs id := by
  unfold setDone
  have : q = (if q.1 = id then (q.1, { q.2 with done := true }) else q) := by simp [hne]
  rw [this]
  exact List.mem_map_of_mem _ hq

theorem mem_setDone_self {hs : List (Nat × Entry)} {id : Nat} {e : Entry}
    (hq : (id, e) ∈ hs) : (id, { e with done := true }) ∈ setDone hs id := by
  unfold setDone
  have : (id, { e with done := true }) =
      (if (id, e).1 = id then ((id, e).1, { (id, e).2 with done := true }) else (id, e)) := by
    simp
  rw [this]
  exact List.mem_map_of_mem _ hq

theorem mem_setDone_back {hs : List (Nat × Entry)} {i : Nat} {q : Nat × Entry}
    (h : q ∈ setDone hs i) :
    ∃ e₀, (q.1, e₀) ∈ hs ∧ q.2.name = e₀.name ∧ q.2.tag = e₀.tag ∧
      q.2.once = e₀.once ∧ q.2.unsubs = e₀.unsubs ∧ (e₀.done = true → q.2.done = true) := by
  unfold setDone at h
  rcases List.mem_map.mp h with ⟨p, hp, hpq⟩
  by_cases hc : p.1 = i
  · rw [if_pos hc] at hpq
    subst hpq
    exact ⟨p.2, by simpa using hp, rfl, rfl, rfl, rfl, fun _ => rfl⟩
  · rw [if_neg hc] at hpq
    subst hpq
    exact ⟨p.2, by simpa using hp, rfl, rfl, rfl, rfl, fun hd => hd⟩

/-! ## Lemmas about a single handler invocation (`fire`) -/

/-- How a registry entry can evolve during a dispatch pass: everything but
the `done` flag is immutable, and `done` only ever goes from false to
true. -/
def EntryEvol (e₀ e' : Entry) : Prop :=
  e'.name = e₀.name ∧ e'.tag = e₀.tag ∧ e'.once = e₀.once ∧
    e'.unsubs = e₀.unsubs ∧ (e₀.done = true → e'.done = true)

theorem entryEvol_refl {e : Entry} : EntryEvol e e :=
  ⟨rfl, rfl, rfl, rfl, fun h => h⟩

theorem entryEvol_trans {e₀ e₁ e₂ : Entry} (h1 : EntryEvol e₀ e₁)
    (h2 : EntryEvol e₁ e₂) : EntryEvol e₀ e₂ :=
  ⟨h2.1.trans h1.1, h2.2.1.trans h1.2.1, h2.2.2.1.trans h1.2.2.1,
    h2.2.2.2.1.trans h1.2.2.2.1, fun h => h2.2.2.2.2 (h1.2.2.2.2 h)⟩

/-- The invocation record `fire` appends to the log: nothing for an inert
(already-done) `once` wrapper, one record otherwise. -/
def fireRec (i : Nat) (e : Entry) (p : JValue) : List (Nat × Nat × JValue) :=
  if e.once = true ∧ e.done = true then [] else [(i, e.tag, p)]

/-- Case analysis principle for `fire`: either the entry is an inert done
`once` wrapper and nothing happens, or the wrapper's flag is set (for
`once`) and the inner handler records and unsubscribes. -/
theorem fire_eq (s : BridgeState) (i : Nat) (e : Entry) (p : JValue) :
    (e.once = true ∧ e.done = true ∧ fire s i e p = s) ∨
    (¬(e.once = true ∧ e.done = true) ∧ fire s i e p =
      { s with
          handlers := removeIds (if e.once then setDone s.handlers i else s.handlers) e.unsubs
          log := s.log ++ [(i, e.tag, p)] }) := by
  unfold fire
  by_cases h1 : e.once = true
  · by_cases h2 : e.done = true
    · exact Or.inl ⟨h1, h2, by rw [if_pos h1, if_pos h2]⟩
    · refine Or.inr ⟨fun hc => h2 hc.2, ?_⟩
      rw [if_pos h1, if_neg h2, if_pos h1]
  · refine Or.inr ⟨fun hc => h1 hc.1, ?_⟩
    rw [if_neg h1, if_neg h1]

theorem fire_log (s : BridgeState) (i : Nat) (e : Entry) (p : JValue) :
    (fire s i e p).log = s.log ++ fireRec i e p := by
  rcases fire_eq s i e p with ⟨_, _, heq⟩ | ⟨hc, heq⟩
  · rw [heq]
    unfold fireRec
    rw [if_pos ⟨by assumption, by assumption⟩, List.append_nil]
  · rw [heq]
    unfold fireRec
    rw [if_neg hc]

theorem fire_warnings (s : BridgeState) (i : Nat) (e : Entry) (p : JValue) :
    (fire s i e p).warnings = s.warnings := by
  rcases fire_eq s i e p with ⟨_, _, heq⟩ | ⟨_, heq⟩ <;> rw [heq]

theorem fire_currentId (s : BridgeState) (i : Nat) (e : Entry) (p : JValue) :
    (fire s i e p).currentId = s.currentId := by
  rcases fire_eq s i e p with ⟨_, _, heq⟩ | ⟨_, heq⟩ <;> rw [heq]

theorem fire_map_fst_sublist (s : BridgeState) (i : Nat) (e : Entry) (p : JValue) :
    ((fire s i e p).handlers.map Prod.fst).Sublist (s.handlers.map Prod.fst) := by
  rcases fire_eq s i e p with ⟨_, _, heq⟩ | ⟨_, heq⟩
  · rw [heq]
  · rw [heq]
    by_cases h1 : e.once = true
    · rw [if_pos h1]
      have h := (removeIds_sublist (setDone s.handlers i) e.unsubs).map Prod.fst
      rw [setDone_map_fst] at h
      exact h
    · rw [if_neg h1]
      exact (removeIds_sublist s.handlers e.unsubs).map Prod.fst

theorem fire_handlers_back {s : BridgeState} {i : Nat} {e : Entry} {p : JValue}
    {q : Nat × Entry} (h : q ∈ (fire s i e p).handlers) :
    ∃ e₀, (q.1, e₀) ∈ s.handlers ∧ EntryEvol e₀ q.2 := by
  rcases fire_eq s i e p with ⟨_, _, heq⟩ | ⟨_, heq⟩ <;> rw [heq] at h
  · exact ⟨q.2, by simpa using h, entryEvol_refl⟩
  · simp only at h
    have h3 := (mem_removeIds.mp h).1
    by_cases h1 : e.once = true
    · rw [if_pos h1] at h3
      exact mem_setDone_back h3
    · rw [if_neg h1] at h3
      exact ⟨q.2, by simpa using h3, entryEvol_refl⟩

theorem fire_mem_of {s : BridgeState} {i : Nat} {e : Entry} {p : JValue}
    {q : Nat × Entry} (hq : q ∈ s.handlers) (hne : q.1 ≠ i)
    (hu : q.1 ∉ e.unsubs) : q ∈ (fire s i e p).handlers := by
  rcases fire_eq s i e p with ⟨_, _, heq⟩ | ⟨_, heq⟩ <;> rw [heq]
  · exact hq
  · simp only
    by_cases h1 : e.once = true
    · rw [if_pos h1]
      exact mem_removeIds.mpr ⟨mem_setDone_of_ne hq hne, hu⟩
    · rw [if_neg h1]
      exact mem_removeIds.mpr ⟨hq, hu⟩

theorem fire_once_self {s : BridgeState} {i : Nat} {e : Entry} {p : JValue}
    (h1 : e.once = true) (h2 : e.done = false) (hq : (i, e) ∈ s.handlers)
    (hu : i ∉ e.unsubs) : (i, { e with done := true }) ∈ (fire s i e p).handlers := by
  rcases fire_eq s i e p with ⟨_, hd, _⟩ | ⟨_, heq⟩
  · rw [h2] at hd
    exact absurd hd (by simp)
  · rw [heq]
    simp only
    rw [if_pos h1]
    exact mem_removeIds.mpr ⟨mem_setDone_self hq, hu⟩

theorem fire_plain_self {s : BridgeState} {i : Nat} {e : Entry} {p : JValue}
    (h1 : e.once = false) (hq : (i, e) ∈ s.handlers) (hu : i ∉ e.unsubs) :
    (i, e) ∈ (fire s i e p).handlers := by
  rcases fire_eq s i e p with ⟨ho, _, _⟩ | ⟨_, heq⟩
  · rw [h1] at ho
    exact absurd ho (by simp)
  · rw [heq]
    simp only
    rw [if_neg (by rw [h1]; simp : ¬(e.once = true))]
    exact mem_removeIds.mpr ⟨hq, hu⟩

theorem fire_removes {s : BridgeState} {i : Nat} {e : Entry} {p : JValue} {j : Nat}
    (hnd : ¬(e.once = true ∧ e.done = true)) (hj : j ∈ e.unsubs) :
    j ∉ (fire s i e p).handlers.map Prod.fst := by
  rcases fire_eq s i e p with ⟨ho, hd, _⟩ | ⟨_, heq⟩
  · exact absurd ⟨ho, hd⟩ hnd
  · rw [heq]
    intro hmem
    simp only at hmem
    rcases List.mem_map.mp hmem with ⟨q, hq, rfl⟩
    exact (mem_removeIds.mp hq).2 hj

/-- With unique keys, an id determines its entry. -/
theorem mem_entry_unique {hs : List (Nat × Entry)} {i : Nat} {e e' : Entry}
    (hnd : (hs.map Prod.fst).Nodup) (h : (i, e) ∈ hs) (h' : (i, e') ∈ hs) :
    e = e' := by
  have h1 := lookupEntry_of_mem hnd h
  have h2 := lookupEntry_of_mem hnd h'
  rw [h1] at h2
  exact Option.some.inj h2

/-! ## Lemmas about the dispatch loop -/

theorem dispatchLoop_warnings (n : String) (p : JValue) (ids : List Nat) :
    ∀ (s : BridgeState) (b : Bool),
      (dispatchLoop n p ids s b).1.warnings = s.warnings := by
  induction ids with
  | nil => intro s b; rfl
  | cons i ids ih =>
    intro s b
    cases h : lookupEntry s.handlers i with
    | none =>
      simp only [dispatchLoop, h]
      exact ih s b
    | some e =>
      by_cases hn : e.name = n
      · simp only [dispatchLoop, h, if_pos hn]
        rw [ih _ true, fire_warnings]
      · simp only [dispatchLoop, h, if_neg hn]
        exact ih s b

theorem dispatchLoop_currentId (n : String) (p : JValue) (ids : List Nat) :
    ∀ (s : BridgeState) (b : Bool),
      (dispatchLoop n p ids s b).1.currentId = s.currentId := by
  induction ids with
  | nil => intro s b; rfl
  | cons i ids ih =>
    intro s b
    cases h : lookupEntry s.handlers i with
    | none =>
      simp only [dispatchLoop, h]
      exact ih s b
    | some e =>
      by_cases hn : e.name = n
      · simp only [dispatchLoop, h, if_pos hn]
        rw [ih _ true, fire_currentId]
      · simp only [dispatchLoop, h, if_neg hn]
        exact ih s b

theorem dispatchLoop_fst_sublist (n : String) (p : JValue) (ids : List Nat) :
    ∀ (s : BridgeState) (b : Bool),
      ((dispatchLoop n p ids s b).1.handlers.map Prod.fst).Sublist
        (s.handlers.map Prod.fst) := by
  induction ids with
  | nil => intro s b; exact List.Sublist.refl _
  | cons i ids ih =>
    intro s b
    cases h : lookupEntry s.handlers i with
    | none =>
      simp only [dispatchLoop, h]
      exact ih s b
    | some e =>
      by_cases hn : e.name = n
      · simp only [dispatchLoop, h, if_pos hn]
        exact (ih _ true).trans (fire_map_fst_sublist s i e p)
      · simp only [dispatchLoop, h, if_neg hn]
        exact ih s b

theorem dispatchLoop_handlers_back (n : String) (p : JValue) (ids : List Nat) :
    ∀ (s : BridgeState) (b : Bool) (q : Nat × Entry),
      q ∈ (dispatchLoop n p ids s b).1.handlers →
      ∃ e₀, (q.1, e₀) ∈ s.handlers ∧ EntryEvol e₀ q.2 := by
  induction ids with
  | nil => intro s b q hq; exact ⟨q.2, by simpa using hq, entryEvol_refl⟩
  | cons i ids ih =>
    intro s b q hq
    cases h : lookupEntry s.handlers i with
    | none =>
      simp only [dispatchLoop, h] at hq
      exact ih s b q hq
    | some e =>
      by_cases hn : e.name = n
      · simp only [dispatchLoop, h, if_pos hn] at hq
        rcases ih _ true q hq with ⟨e₁, he₁, hev₁⟩
        rcases fire_handlers_back he₁ with ⟨e₀, he₀, hev₀⟩
        exact ⟨e₀, he₀, entryEvol_trans hev₀ hev₁⟩
      · simp only [dispatchLoop, h, if_neg hn] at hq
        exact ih s b q hq

theorem dispatchLoop_delta (n : String) (p : JValue) (ids : List Nat) :
    ∀ (s : BridgeState) (b : Bool),
      ∃ d, (dispatchLoop n p ids s b).1.log = s.log ++ d ∧
        (d.map (fun r => r.1)).Sublist ids := by
  induction ids with
  | nil => intro s b; exact ⟨[], by simp [dispatchLoop], List.Sublist.refl _⟩
  | cons i ids ih =>
    intro s b
    cases h : lookupEntry s.handlers i with
    | none =>
      simp only [dispatchLoop, h]
      rcases ih s b with ⟨d, hd, hsub⟩
      exact ⟨d, hd, hsub.cons i⟩
    | some e =>
      by_cases hn : e.name = n
      · simp only [dispatchLoop, h, if_pos hn]
        rcases ih (fire s i e p) true with ⟨d, hd, hsub⟩
        rw [fire_log] at hd
        unfold fireRec at hd
        by_cases hdone : e.once = true ∧ e.done = true
        · rw [if_pos hdone, List.append_nil] at hd
          exact ⟨d, hd, hsub.cons i⟩
        · rw [if_neg hdone, List.append_assoc] at hd
          exact ⟨(i, e.tag, p) :: d, hd, by simpa using hsub.cons₂ i⟩
      · simp only [dispatchLoop, h, if_neg hn]
        rcases ih s b with ⟨d, hd, hsub⟩
        exact ⟨d, hd, hsub.cons i⟩

theorem dispatchLoop_log_mem (n : String) (p : JValue) (ids : List Nat) :
    ∀ (s : BridgeState) (b : Bool) (r : Nat × Nat × JValue),
      r ∈ (dispatchLoop n p ids s b).1.log →
      r ∈ s.log ∨ ∃ e₀, (r.1, e₀) ∈ s.handlers ∧ e₀.name = n ∧
        e₀.tag = r.2.1 ∧ r.2.2 = p ∧ ¬(e₀.once = true ∧ e₀.done = true) := by
  induction ids with
  | nil => intro s b r hr; exact Or.inl hr
  | cons i ids ih =>
    intro s b r hr
    cases h : lookupEntry s.handlers i with
    | none =>
      simp only [dispatchLoop, h] at hr
      exact ih s b r hr
    | some e =>
      by_cases hn : e.name = n
      · simp only [dispatchLoop, h, if_pos hn] at hr
        rcases ih _ true r hr with hr' | ⟨e₁, he₁, hname, htag, hpay, hnd⟩
        · rw [fire_log] at hr'
          rcases List.mem_append.mp hr' with hr'' | hr''
          · exact Or.inl hr''
          · unfold fireRec at hr''
            by_cases hdone : e.once = true ∧ e.done = true
            · rw [if_pos hdone] at hr''
              simp at hr''
            · rw [if_neg hdone] at hr''
              rcases List.mem_singleton.mp hr'' with rfl
              exact Or.inr ⟨e, lookupEntry_mem h, hn, rfl, rfl, hdone⟩
        · rcases fire_handlers_back he₁ with ⟨e₀, he₀, hev⟩
          refine Or.inr ⟨e₀, he₀, ?_, ?_, hpay, ?_⟩
          · rw [← hev.1, hname]
          · rw [← hev.2.1, htag]
          · rintro ⟨ho, hd⟩
            exact hnd ⟨hev.2.2.1.trans ho, hev.2.2.2.2 hd⟩
      · simp only [dispatchLoop, h, if_neg hn] at hr
        exact ih s b r hr

theorem dispatchLoop_inv_true (n : String) (p : JValue) (ids : List Nat) :
    ∀ (s : BridgeState), (dispatchLoop n p ids s true).2 = true := by
  induction ids with
  | nil => intro s; rfl
  | cons i ids ih =>
    intro s
    cases h : lookupEntry s.handlers i with
    | none =>
      simp only [dispatchLoop, h]
      exact ih s
    | some e =>
      by_cases hn : e.name = n
      · simp only [dispatchLoop, h, if_pos hn]
        exact ih _
      · simp only [dispatchLoop, h, if_neg hn]
        exact ih s

theorem dispatchLoop_inv_of_matching (n : String) (p : JValue) (ids : List Nat) :
    ∀ (s : BridgeState) (b : Bool) (i : Nat) (e : Entry),
      (s.handlers.map Prod.fst).Nodup → (i, e) ∈ s.handlers → i ∈ ids →
      e.name = n → (dispatchLoop n p ids s b).2 = true := by
  induction ids with
  | nil => intro s b i e _ _ hin _; simp at hin
  | cons j ids ih =>
    intro s b i e hnd hmem hin hname
    cases h : lookupEntry s.handlers j with
    | none =>
      simp only [dispatchLoop, h]
      have hij : i ≠ j := by
        intro hij
        subst hij
        exact (lookupEntry_eq_none.mp h) (List.mem_map_of_mem Prod.fst hmem)
      have hin' : i ∈ ids := by
        rcases List.mem_cons.mp hin with h' | h'
        · exact absurd h' hij
        · exact h'
      exact ih s b i e hnd hmem hin' hname
    | some ej =>
      by_cases hn : ej.name = n
      · simp only [dispatchLoop, h, if_pos hn]
        exact dispatchLoop_inv_true n p ids _
      · simp only [dispatchLoop, h, if_neg hn]
        have hij : i ≠ j := by
          intro hij
          subst hij
          have := mem_entry_unique hnd hmem (lookupEntry_mem h)
          subst this
          exact hn hname
        have hin' : i ∈ ids := by
          rcases List.mem_cons.mp hin with h' | h'
          · exact absurd h' hij
          · exact h'
        exact ih s b i e hnd hmem hin' hname

theorem dispatchLoop_no_match (n : String) (p : JValue) (ids : List Nat) :
    ∀ (s : BridgeState) (b : Bool), (∀ q ∈ s.handlers, q.2.name ≠ n) →
      dispatchLoop n p ids s b = (s, b) := by
  induction ids with
  | nil => intro s b _; rfl
  | cons i ids ih =>
    intro s b hno
    cases h : lookupEntry s.handlers i with
    | none =>
      simp only [dispatchLoop, h]
      exact ih s b hno
    | some e =>
      have hn : e.name ≠ n := hno (i, e) (lookupEntry_mem h)
      simp only [dispatchLoop, h, if_neg hn]
      exact ih s b hno

theorem dispatchLoop_preserve (n : String) (p : JValue) (ids : List Nat) :
    ∀ (s : BridgeState) (b : Bool) (i : Nat) (e : Entry),
      (s.handlers.map Prod.fst).Nodup → (i, e) ∈ s.handlers → i ∉ ids →
      (∀ q ∈ s.handlers, q.1 ≠ i → i ∉ q.2.unsubs) →
      (i, e) ∈ (dispatchLoop n p ids s b).1.handlers := by
  induction ids with
  | nil => intro s b i e _ hmem _ _; exact hmem
  | cons j ids ih =>
    intro s b i e hnd hmem hnin hu
    have hji : j ≠ i := fun hji => hnin (hji ▸ List.mem_cons_self j ids)
    have hnin' : i ∉ ids := fun h' => hnin (List.mem_cons_of_mem j h')
    cases h : lookupEntry s.handlers j with
    | none =>
      simp only [dispatchLoop, h]
      exact ih s b i e hnd hmem hnin' hu
    | some ej =>
      by_cases hn : ej.name = n
      · simp only [dispatchLoop, h, if_pos hn]
        have hmemj : (j, ej) ∈ s.handlers := lookupEntry_mem h
        have hiu : i ∉ ej.unsubs := hu (j, ej) hmemj hji
        refine ih (fire s j ej p) true i e ?_ ?_ hnin' ?_
        · exact (fire_map_fst_sublist s j ej p).nodup hnd
        · exact fire_mem_of hmem (by simpa using fun h' => hji h'.symm) hiu
        · intro q hq hqi
          rcases fire_handlers_back hq with ⟨e₀, he₀, hev⟩
          rw [hev.2.2.2.1]
          exact hu (q.1, e₀) he₀ hqi
      · simp only [dispatchLoop, h, if_neg hn]
        exact ih s b i e hnd hmem hnin' hu

theorem dispatchLoop_append (n : String) (p : JValue) (l₁ l₂ : List Nat) :
    ∀ (s : BridgeState) (b : Bool),
      dispatchLoop n p (l₁ ++ l₂) s b =
        dispatchLoop n p l₂ (dispatchLoop n p l₁ s b).1 (dispatchLoop n p l₁ s b).2 := by
  induction l₁ with
  | nil => intro s b; rfl
  | cons i l₁ ih =>
    intro s b
    cases h : lookupEntry s.handlers i with
    | none =>
      simp only [List.cons_append, dispatchLoop, h]
      exact ih s b
    | some e =>
      by_cases hn : e.name = n
      · simp only [List.cons_append, dispatchLoop, h, if_pos hn]
        exact ih _ true
      · simp only [List.cons_append, dispatchLoop, h, if_neg hn]
        exact ih s b

/-! ## Registration, unsubscription and well-formedness -/

theorem WF.nodup {s : BridgeState} (h : WF s) : (s.handlers.map Prod.fst).Nodup :=
  h.1.imp Nat.ne_of_lt

theorem register_handlers (s : BridgeState) (n : String) (o : Bool) (t : Nat)
    (U : List Nat) :
    (register s n o t U).1.handlers =
      s.handlers ++ [(s.currentId, ⟨n, o, false, t, U⟩)] := rfl

theorem register_id (s : BridgeState) (n : String) (o : Bool) (t : Nat)
    (U : List Nat) : (register s n o t U).2 = s.currentId := rfl

theorem register_currentId (s : BridgeState) (n : String) (o : Bool) (t : Nat)
    (U : List Nat) : (register s n o t U).1.currentId = s.currentId + 1 := rfl

theorem register_log (s : BridgeState) (n : String) (o : Bool) (t : Nat)
    (U : List Nat) : (register s n o t U).1.log = s.log := rfl

theorem WF_register {s : BridgeState} (h : WF s) (n : String) (o : Bool)
    (t : Nat) (U : List Nat) : WF (register s n o t U).1 := by
  refine ⟨?_, ?_, ?_⟩
  · show ((s.handlers ++ [(s.currentId, _)]).map Prod.fst).Pairwise (· < ·)
    rw [List.map_append]
    refine List.pairwise_append.mpr ⟨h.1, List.pairwise_singleton _ _, ?_⟩
    intro a ha b hb
    rcases List.mem_map.mp ha with ⟨q, hq, rfl⟩
    simp only [List.map_cons, List.map_nil, List.mem_singleton] at hb
    subst hb
    exact h.2.1 q hq
  · intro q hq
    rcases List.mem_append.mp hq with hq' | hq'
    · exact Nat.lt_succ_of_lt (h.2.1 q hq')
    · simp only [List.mem_singleton] at hq'
      subst hq'
      exact Nat.lt_succ_self _
  · intro r hr
    exact Nat.lt_succ_of_lt (h.2.2 r hr)

theorem WF_unsub {s : BridgeState} (h : WF s) (i : Nat) : WF (unsub s i) := by
  refine ⟨?_, ?_, ?_⟩
  · exact h.1.sublist ((List.filter_sublist s.handlers).map Prod.fst)
  · intro q hq
    exact h.2.1 q (List.mem_of_mem_filter hq)
  · exact h.2.2

theorem mem_unsub {s : BridgeState} {i : Nat} {q : Nat × Entry} :
    q ∈ (unsub s i).handlers ↔ q ∈ s.handlers ∧ q.1 ≠ i := by
  unfold unsub
  simp [List.mem_filter]

/-- Unsubscribing the freshly allocated id undoes the registration. -/
theorem unsub_register {s : BridgeState} (h : WF s) (n : String) (o : Bool)
    (t : Nat) (U : List Nat) :
    (unsub (register s n o t U).1 (register s n o t U).2).handlers = s.handlers := by
  have hshape : (unsub (register s n o t U).1 (register s n o t U).2).handlers =
      ((register s n o t U).1.handlers).filter
        (fun q => q.1 ≠ (register s n o t U).2) := rfl
  rw [hshape, register_handlers, register_id]
  simp only [List.filter_append]
  rw [List.filter_eq_self.mpr, List.filter_cons, if_neg (by simp)]
  · simp
  · intro q hq
    exact decide_eq_true (Nat.ne_of_lt (h.2.1 q hq))

/-! ## Lemmas about `invokeEventHandler` -/

theorem invoke_currentId (s : BridgeState) (n : String) (p : JValue) :
    (invokeEventHandler s n p).currentId = s.currentId := by
  unfold invokeEventHandler
  by_cases hb : (dispatchLoop n p (s.handlers.map Prod.fst) s false).2 = true
  · rw [if_pos hb]
    exact dispatchLoop_currentId n p _ s false
  · rw [if_neg hb]
    exact dispatchLoop_currentId n p _ s false

theorem invoke_handlers (s : BridgeState) (n : String) (p : JValue) :
    (invokeEventHandler s n p).handlers =
      (dispatchLoop n p (s.handlers.map Prod.fst) s false).1.handlers := by
  unfold invokeEventHandler
  by_cases hb : (dispatchLoop n p (s.handlers.map Prod.fst) s false).2 = true
  · rw [if_pos hb]
  · rw [if_neg hb]

theorem invoke_log (s : BridgeState) (n : String) (p : JValue) :
    (invokeEventHandler s n p).log =
      (dispatchLoop n p (s.handlers.map Prod.fst) s false).1.log := by
  unfold invokeEventHandler
  by_cases hb : (dispatchLoop n p (s.handlers.map Prod.fst) s false).2 = true
  · rw [if_pos hb]
  · rw [if_neg hb]

theorem invoke_handlers_back {s : BridgeState} {n : String} {p : JValue}
    {q : Nat × Entry} (hq : q ∈ (invokeEventHandler s n p).handlers) :
    ∃ e₀, (q.1, e₀) ∈ s.handlers ∧ EntryEvol e₀ q.2 := by
  rw [invoke_handlers] at hq
  exact dispatchLoop_handlers_back n p _ s false q hq

theorem invoke_log_mem {s : BridgeState} {n : String} {p : JValue}
    {r : Nat × Nat × JValue} (hr : r ∈ (invokeEventHandler s n p).log) :
    r ∈ s.log ∨ ∃ e₀, (r.1, e₀) ∈ s.handlers ∧ e₀.name = n ∧
      e₀.tag = r.2.1 ∧ r.2.2 = p ∧ ¬(e₀.once = true ∧ e₀.done = true) := by
  rw [invoke_log] at hr
  exact dispatchLoop_log_mem n p _ s false r hr

theorem invoke_delta (s : BridgeState) (n : String) (p : JValue) :
    ∃ d, (invokeEventHandler s n p).log = s.log ++ d ∧
      (d.map (fun r => r.1)).Sublist (s.handlers.map Prod.fst) := by
  rw [invoke_log]
  exact dispatchLoop_delta n p _ s false

theorem WF_invoke {s : BridgeState} (h : WF s) (n : String) (p : JValue) :
    WF (invokeEventHandler s n p) := by
  refine ⟨?_, ?_, ?_⟩
  · rw [invoke_handlers]
    exact h.1.sublist (dispatchLoop_fst_sublist n p _ s false)
  · intro q hq
    rw [invoke_handlers] at hq
    rw [invoke_currentId]
    rcases dispatchLoop_handlers_back n p _ s false q hq with ⟨e₀, he₀, _⟩
    exact h.2.1 (q.1, e₀) he₀
  · intro r hr
    rw [invoke_currentId]
    rcases invoke_log_mem hr with hr' | ⟨e₀, he₀, _⟩
    · exact h.2.2 r hr'
    · exact h.2.1 (r.1, e₀) he₀

/-- When no registered entry has the dispatched name, `invokeEventHandler`
changes nothing except appending exactly one diagnostic warning. -/
theorem invoke_no_match {s : BridgeState} {n : String} (p : JValue)
    (hno : ∀ q ∈ s.handlers, q.2.name ≠ n) :
    invokeEventHandler s n p =
      { s with warnings := s.warnings ++ [noHandlerWarning n] } := by
  unfold invokeEventHandler
  rw [dispatchLoop_no_match n p _ s false hno]
  rfl

/-- When some registered entry has the dispatched name, the `invoked` flag
ends up true and no warning is emitted. -/
theorem invoke_no_warn {s : BridgeState} {n : String} (p : JValue) {i : Nat}
    {e : Entry} (hnd : (s.handlers.map Prod.fst).Nodup)
    (hmem : (i, e) ∈ s.handlers) (hname : e.name = n) :
    (invokeEventHandler s n p).warnings = s.warnings := by
  unfold invokeEventHandler
  have hinv := dispatchLoop_inv_of_matching n p (s.handlers.map Prod.fst) s false
    i e hnd hmem (List.mem_map_of_mem Prod.fst hmem) hname
  rw [if_pos hinv]
  exact dispatchLoop_warnings n p _ s false

/-! ## The once-at-most-once budget

`tagCount` counts how often a given user handler (identified by its tag)
appears in the invocation log; `liveCount` counts registry entries that
could still produce such a record.  For a `once` registration the sum is
bounded by one and every operation preserves the bound. -/

/-- Number of logged invocations of the handler tagged `t`. -/
def tagCount (l : List (Nat × Nat × JValue)) (t : Nat) : Nat :=
  l.countP (fun r => r.2.1 == t)

/-- Number of registry entries that could still log an invocation of the
handler tagged `t` as a `once` wrapper: tagged `t`, `once`, not yet done. -/
def liveCount (hs : List (Nat × Entry)) (t : Nat) : Nat :=
  hs.countP (fun q => q.2.tag == t && (q.2.once && !q.2.done))

/-- Invariant for a `once` handler tagged `t` registered under id `k`:
every entry carrying the tag is that one `once` registration, and the
number of logged invocations plus the number of still-live wrappers is at
most one. -/
def OnceInv (s : BridgeState) (t k : Nat) : Prop :=
  (∀ q ∈ s.handlers, q.2.tag = t → q.1 = k ∧ q.2.once = true) ∧
    tagCount s.log t + liveCount s.handlers t ≤ 1

theorem tagCount_append (l₁ l₂ : List (Nat × Nat × JValue)) (t : Nat) :
    tagCount (l₁ ++ l₂) t = tagCount l₁ t + tagCount l₂ t :=
  List.countP_append _ _ _

theorem fire_budget {s : BridgeState} {i : Nat} {e : Entry} {p : JValue} {t k : Nat}
    (hmem : (i, e) ∈ s.handlers) (hinv : OnceInv s t k) :
    OnceInv (fire s i e p) t k := by
  rcases fire_eq s i e p with ⟨_, _, heq⟩ | ⟨hlive, heq⟩
  · rw [heq]; exact hinv
  · constructor
    · intro q hq htag
      rcases fire_handlers_back hq with ⟨e₀, he₀, hev⟩
      have he₀t : e₀.tag = t := by rw [← hev.2.1, htag]
      have h₀ := hinv.1 (q.1, e₀) he₀ he₀t
      exact ⟨h₀.1, by rw [hev.2.2.1]; exact h₀.2⟩
    · have hsplit : ∀ hs' : List (Nat × Entry),
          liveCount (removeIds hs' e.unsubs) t ≤ liveCount hs' t :=
        fun hs' => (removeIds_sublist hs' e.unsubs).countP_le _
      rw [heq]
      show tagCount (s.log ++ [(i, e.tag, p)]) t +
        liveCount (removeIds (if e.once then setDone s.handlers i else s.handlers)
          e.unsubs) t ≤ 1
      rw [tagCount_append]
      by_cases hte : e.tag = t
      · -- the fired handler is the once handler itself: it was live,
        -- so no invocation was logged yet, and afterwards no live wrapper
        -- remains.
        have h₀ := hinv.1 (i, e) hmem hte
        have honce : e.once = true := h₀.2
        have hdone : e.done = false := by
          cases hd : e.done
          · rfl
          · exact absurd ⟨honce, hd⟩ hlive
        have hliveone : 0 < liveCount s.handlers t := by
          refine List.countP_pos_iff.mpr ⟨(i, e), hmem, ?_⟩
          simp [hte, honce, hdone]
        have hlog0 : tagCount s.log t = 0 := by
          have hsum := hinv.2
          omega
        have hsingle : tagCount [(i, e.tag, p)] t = 1 := by
          unfold tagCount
          simp [hte]
        have hlivezero : liveCount (setDone s.handlers i) t = 0 := by
          unfold liveCount setDone
          rw [List.countP_map]
          refine List.countP_eq_zero.mpr ?_
          intro q hq
          by_cases hqi : q.1 = i
          · simp [Function.comp, hqi]
          · simp only [Function.comp, hqi, if_neg, if_false, Bool.and_eq_true,
              beq_iff_eq, Bool.not_eq_true']
            rintro ⟨hqt, _, _⟩
            exact hqi ((hinv.1 q hq hqt).1.trans (h₀.1.symm))
        have : liveCount (removeIds (if e.once then setDone s.handlers i
            else s.handlers) e.unsubs) t = 0 := by
          rw [if_pos honce]
          exact Nat.le_zero.mp (hlivezero ▸ hsplit (setDone s.handlers i))
        omega
      · -- an unrelated handler fired: nothing tagged `t` was logged and
        -- live wrappers can only disappear.
        have hsingle : tagCount [(i, e.tag, p)] t = 0 := by
          unfold tagCount
          simp [hte]
        have hsd : liveCount (if e.once then setDone s.handlers i else s.handlers) t ≤
            liveCount s.handlers t := by
          by_cases ho : e.once = true
          · rw [if_pos ho]
            unfold liveCount setDone
            rw [List.countP_map]
            refine List.countP_mono_left ?_
            intro q hq
            by_cases hqi : q.1 = i
            · simp [Function.comp, hqi]
            · simp [Function.comp, hqi]
          · rw [if_neg ho]
        have := hsplit (if e.once then setDone s.handlers i else s.handlers)
        have hsum := hinv.2
        omega

theorem dispatchLoop_budget (n : String) (p : JValue) (ids : List Nat) :
    ∀ (s : BridgeState) (b : Bool) (t k : Nat), OnceInv s t k →
      OnceInv (dispatchLoop n p ids s b).1 t k := by
  induction ids with
  | nil => intro s b t k h; exact h
  | cons i ids ih =>
    intro s b t k h
    cases hl : lookupEntry s.handlers i with
    | none =>
      simp only [dispatchLoop, hl]
      exact ih s b t k h
    | some e =>
      by_cases hn : e.name = n
      · simp only [dispatchLoop, hl, if_pos hn]
        exact ih _ true t k (fire_budget (lookupEntry_mem hl) h)
      · simp only [dispatchLoop, hl, if_neg hn]
        exact ih s b t k h

theorem invoke_budget {s : BridgeState} {n : String} {p : JValue} {t k : Nat}
    (h : OnceInv s t k) : OnceInv (invokeEventHandler s n p) t k := by
  have h2 := dispatchLoop_budget n p (s.handlers.map Prod.fst) s false t k h
  constructor
  · intro q hq
    rw [invoke_handlers] at hq
    exact h2.1 q hq
  · show tagCount (invokeEventHandler s n p).log t +
      liveCount (invokeEventHandler s n p).handlers t ≤ 1
    rw [invoke_log, invoke_handlers]
    exact h2.2

theorem dispatchSeq_budget (evs : List (String × JValue)) :
    ∀ (s : BridgeState) (t k : Nat), OnceInv s t k →
      OnceInv (dispatchSeq evs s) t k := by
  induction evs with
  | nil => intro s t k h; exact h
  | cons ev evs ih =>
    intro s t k h
    exact ih _ t k (invoke_budget h)

theorem invoke_tagCount_le (s : BridgeState) (n : String) (p : JValue) (t : Nat) :
    tagCount s.log t ≤ tagCount (invokeEventHandler s n p).log t := by
  rcases invoke_delta s n p with ⟨d, hd, _⟩
  rw [hd, tagCount_append]
  exact Nat.le_add_right _ _

theorem dispatchSeq_tagCount_le (evs : List (String × JValue)) :
    ∀ (s : BridgeState) (t : Nat),
      tagCount s.log t ≤ tagCount (dispatchSeq evs s).log t := by
  induction evs with
  | nil => intro s t; exact Nat.le_refl _
  | cons ev evs ih =>
    intro s t
    exact (invoke_tagCount_le s ev.1 ev.2 t).trans (ih _ t)

theorem WF_dispatchSeq (evs : List (String × JValue)) :
    ∀ (s : BridgeState), WF s → WF (dispatchSeq evs s) := by
  induction evs with
  | nil => intro s h; exact h
  | cons ev evs ih =>
    intro s h
    exact ih _ (WF_invoke h ev.1 ev.2)

/-- Registering a `once` handler with a fresh tag into a state whose log
does not mention the tag establishes the budget invariant. -/
theorem onceInv_register {s : BridgeState} {t : Nat}
    (hfresh : ∀ q ∈ s.handlers, q.2.tag ≠ t) (hlog : tagCount s.log t = 0)
    (n : String) (U : List Nat) :
    OnceInv (register s n true t U).1 t s.currentId := by
  constructor
  · intro q hq htag
    rw [register_handlers] at hq
    rcases List.mem_append.mp hq with h' | h'
    · exact absurd htag (hfresh q h')
    · simp only [List.mem_singleton] at h'
      subst h'
      exact ⟨rfl, rfl⟩
  · show tagCount s.log t +
      liveCount (s.handlers ++ [(s.currentId, ⟨n, true, false, t, U⟩)]) t ≤ 1
    rw [hlog]
    unfold liveCount
    rw [List.countP_append]
    have h0 : s.handlers.countP
        (fun q => q.2.tag == t && (q.2.once && !q.2.done)) = 0 := by
      refine List.countP_eq_zero.mpr ?_
      intro q hq
      simp only [Bool.and_eq_true, beq_iff_eq, Bool.not_eq_true']
      rintro ⟨hqt, _⟩
      exact hfresh q hq hqt
    rw [h0]
    simp

/-! ## Reaching an entry during a pass

The for-in snapshot of a well-formed registry splits around any present
key into strictly smaller keys, the key, and strictly larger keys; the
entry survives the prefix (nobody may unsubscribe it), fires at its turn,
and the effects persist through the suffix. -/

theorem split_snapshot {s : BridgeState} {i : Nat} {e : Entry} (hWF : WF s)
    (hmem : (i, e) ∈ s.handlers) :
    ∃ l₁ l₂, s.handlers.map Prod.fst = l₁ ++ i :: l₂ ∧
      (∀ j ∈ l₁, j < i) ∧ (∀ j ∈ l₂, i < j) ∧ i ∉ l₁ ∧ i ∉ l₂ := by
  have hmem' : i ∈ s.handlers.map Prod.fst := List.mem_map_of_mem Prod.fst hmem
  rcases List.append_of_mem hmem' with ⟨l₁, l₂, hsnap⟩
  have hs := hWF.1
  rw [hsnap] at hs
  have hps := List.pairwise_append.mp hs
  have h₁ : ∀ j ∈ l₁, j < i := fun j hj => hps.2.2 j hj i (List.mem_cons_self i l₂)
  have h₂ : ∀ j ∈ l₂, i < j := (List.pairwise_cons.mp hps.2.1).1
  exact ⟨l₁, l₂, hsnap, h₁, h₂,
    fun hi => absurd (h₁ i hi) (Nat.lt_irrefl i),
    fun hi => absurd (h₂ i hi) (Nat.lt_irrefl i)⟩

/-- If an entry with a matching name is registered and no *other* entry
unsubscribes it, a dispatch of that name reaches it; unless it is an
already-done `once` wrapper, its invocation is logged. -/
theorem invoke_fire_rec {s : BridgeState} {n : String} (p : JValue) {i : Nat}
    {e : Entry} (hWF : WF s) (hmem : (i, e) ∈ s.handlers) (hname : e.name = n)
    (hlive : ¬(e.once = true ∧ e.done = true))
    (hu : ∀ q ∈ s.handlers, q.1 ≠ i → i ∉ q.2.unsubs) :
    (i, e.tag, p) ∈ (invokeEventHandler s n p).log := by
  rcases split_snapshot hWF hmem with ⟨l₁, l₂, hsnap, _, _, hnot₁, hnot₂⟩
  have h₁ : (i, e) ∈ (dispatchLoop n p l₁ s false).1.handlers :=
    dispatchLoop_preserve n p l₁ s false i e hWF.nodup hmem hnot₁ hu
  have hnd₁ : ((dispatchLoop n p l₁ s false).1.handlers.map Prod.fst).Nodup :=
    (dispatchLoop_fst_sublist n p l₁ s false).nodup hWF.nodup
  have hlook : lookupEntry (dispatchLoop n p l₁ s false).1.handlers i = some e :=
    lookupEntry_of_mem hnd₁ h₁
  have hstep : dispatchLoop n p [i] (dispatchLoop n p l₁ s false).1
      (dispatchLoop n p l₁ s false).2 =
      (fire (dispatchLoop n p l₁ s false).1 i e p, true) := by
    simp only [dispatchLoop, hlook, if_pos hname]
  have hshape : s.handlers.map Prod.fst = (l₁ ++ [i]) ++ l₂ := by
    rw [hsnap]; simp
  rw [invoke_log, hshape, dispatchLoop_append, dispatchLoop_append, hstep]
  simp only
  rcases dispatchLoop_delta n p l₂ (fire (dispatchLoop n p l₁ s false).1 i e p)
    true with ⟨d, hd, _⟩
  rw [hd, fire_log]
  unfold fireRec
  rw [if_neg hlive]
  simp

/-- A `once` entry that fires stays registered with its flag set, and the
invocation is logged, provided no other entry unsubscribes it and it does
not unsubscribe itself. -/
theorem invoke_once_step {s : BridgeState} {n : String} (p : JValue) {i : Nat}
    {e : Entry} (hWF : WF s) (hmem : (i, e) ∈ s.handlers) (hname : e.name = n)
    (honce : e.once = true) (hdone : e.done = false)
    (hu : ∀ q ∈ s.handlers, q.1 ≠ i → i ∉ q.2.unsubs) (hself : i ∉ e.unsubs) :
    (i, { e with done := true }) ∈ (invokeEventHandler s n p).handlers := by
  rcases split_snapshot hWF hmem with ⟨l₁, l₂, hsnap, _, _, hnot₁, hnot₂⟩
  have h₁ : (i, e) ∈ (dispatchLoop n p l₁ s false).1.handlers :=
    dispatchLoop_preserve n p l₁ s false i e hWF.nodup hmem hnot₁ hu
  have hnd₁ : ((dispatchLoop n p l₁ s false).1.handlers.map Prod.fst).Nodup :=
    (dispatchLoop_fst_sublist n p l₁ s false).nodup hWF.nodup
  have hlook : lookupEntry (dispatchLoop n p l₁ s false).1.handlers i = some e :=
    lookupEntry_of_mem hnd₁ h₁
  have hstep : dispatchLoop n p [i] (dispatchLoop n p l₁ s false).1
      (dispatchLoop n p l₁ s false).2 =
      (fire (dispatchLoop n p l₁ s false).1 i e p, true) := by
    simp only [dispatchLoop, hlook, if_pos hname]
  have hshape : s.handlers.map Prod.fst = (l₁ ++ [i]) ++ l₂ := by
    rw [hsnap]; simp
  rw [invoke_handlers, hshape, dispatchLoop_append, dispatchLoop_append, hstep]
  simp only
  have hfire : (i, { e with done := true }) ∈
      (fire (dispatchLoop n p l₁ s false).1 i e p).handlers :=
    fire_once_self honce hdone h₁ hself
  have hndf : ((fire (dispatchLoop n p l₁ s false).1 i e p).handlers.map
      Prod.fst).Nodup :=
    (fire_map_fst_sublist _ i e p).nodup hnd₁
  refine dispatchLoop_preserve n p l₂ _ true i _ hndf hfire hnot₂ ?_
  intro q hq hqi
  rcases fire_handlers_back hq with ⟨e₁, he₁, hev₁⟩
  rcases dispatchLoop_handlers_back n p l₁ s false (q.1, e₁) he₁ with ⟨e₀, he₀, hev₀⟩
  rw [hev₁.2.2.2.1, hev₀.2.2.2.1]
  exact hu (q.1, e₀) he₀ hqi

/-- A not-yet-visited entry whose id an earlier matching handler
unsubscribes produces no invocation record in that pass. -/
theorem invoke_skip {s : BridgeState} {n : String} (p : JValue) {i₂ : Nat}
    {e₂ : Entry} {i₃ : Nat} (hWF : WF s) (hmem₂ : (i₂, e₂) ∈ s.handlers)
    (hname₂ : e₂.name = n) (hlive₂ : ¬(e₂.once = true ∧ e₂.done = true))
    (hu₂ : ∀ q ∈ s.handlers, q.1 ≠ i₂ → i₂ ∉ q.2.unsubs)
    (hkill : i₃ ∈ e₂.unsubs) (hlt : i₂ < i₃) :
    ∀ r ∈ (invokeEventHandler s n p).log, r.1 = i₃ → r ∈ s.log := by
  rcases split_snapshot hWF hmem₂ with ⟨l₁, l₂, hsnap, hlt₁, _, hnot₁, hnot₂⟩
  have h₁ : (i₂, e₂) ∈ (dispatchLoop n p l₁ s false).1.handlers :=
    dispatchLoop_preserve n p l₁ s false i₂ e₂ hWF.nodup hmem₂ hnot₁ hu₂
  have hnd₁ : ((dispatchLoop n p l₁ s false).1.handlers.map Prod.fst).Nodup :=
    (dispatchLoop_fst_sublist n p l₁ s false).nodup hWF.nodup
  have hlook : lookupEntry (dispatchLoop n p l₁ s false).1.handlers i₂ = some e₂ :=
    lookupEntry_of_mem hnd₁ h₁
  have hstep : dispatchLoop n p [i₂] (dispatchLoop n p l₁ s false).1
      (dispatchLoop n p l₁ s false).2 =
      (fire (dispatchLoop n p l₁ s false).1 i₂ e₂ p, true) := by
    simp only [dispatchLoop, hlook, if_pos hname₂]
  have hshape : s.handlers.map Prod.fst = (l₁ ++ [i₂]) ++ l₂ := by
    rw [hsnap]; simp
  intro r hr hri
  rw [invoke_log, hshape, dispatchLoop_append, dispatchLoop_append, hstep] at hr
  simp only at hr
  rcases dispatchLoop_log_mem n p l₂ _ true r hr with hr' | ⟨e₀, he₀, _⟩
  · rw [fire_log] at hr'
    rcases List.mem_append.mp hr' with hr'' | hr''
    · rcases dispatchLoop_delta n p l₁ s false with ⟨d₁, hd₁, hsub₁⟩
      rw [hd₁] at hr''
      rcases List.mem_append.mp hr'' with hr₃ | hr₃
      · exact hr₃
      · exfalso
        have : r.1 ∈ d₁.map (fun r => r.1) := List.mem_map_of_mem _ hr₃
        have : i₃ ∈ l₁ := hsub₁.mem (hri ▸ this)
        exact Nat.lt_irrefl i₃ ((hlt₁ i₃ this).trans hlt)
    · exfalso
      unfold fireRec at hr''
      rw [if_neg hlive₂] at hr''
      rcases List.mem_singleton.mp hr'' with rfl
      simp only at hri
      omega
  · exfalso
    have : r.1 ∈ (fire (dispatchLoop n p l₁ s false).1 i₂ e₂ p).handlers.map
        Prod.fst := List.mem_map_of_mem Prod.fst he₀
    rw [hri] at this
    exact fire_removes hlive₂ hkill this

/-- The records a pass appends, with provenance: every appended record
comes from an entry that was registered (and not an already-done `once`
wrapper) when the pass started. -/
theorem dispatchLoop_delta_mem (n : String) (p : JValue) (ids : List Nat) :
    ∀ (s : BridgeState) (b : Bool),
      ∃ d, (dispatchLoop n p ids s b).1.log = s.log ++ d ∧
        (d.map (fun r => r.1)).Sublist ids ∧
        ∀ r ∈ d, ∃ e₀, (r.1, e₀) ∈ s.handlers ∧ e₀.name = n ∧
          e₀.tag = r.2.1 ∧ r.2.2 = p ∧ ¬(e₀.once = true ∧ e₀.done = true) := by
  induction ids with
  | nil =>
    intro s b
    exact ⟨[], by simp [dispatchLoop], List.Sublist.refl _, by simp⟩
  | cons i ids ih =>
    intro s b
    cases h : lookupEntry s.handlers i with
    | none =>
      simp only [dispatchLoop, h]
      rcases ih s b with ⟨d, hd, hsub, hmem⟩
      exact ⟨d, hd, hsub.cons i, hmem⟩
    | some e =>
      by_cases hn : e.name = n
      · simp only [dispatchLoop, h, if_pos hn]
        rcases ih (fire s i e p) true with ⟨d, hd, hsub, hmem⟩
        have hback : ∀ r ∈ d, ∃ e₀, (r.1, e₀) ∈ s.handlers ∧ e₀.name = n ∧
            e₀.tag = r.2.1 ∧ r.2.2 = p ∧ ¬(e₀.once = true ∧ e₀.done = true) := by
          intro r hr
          rcases hmem r hr with ⟨e₁, he₁, hn₁, ht₁, hp₁, hl₁⟩
          rcases fire_handlers_back he₁ with ⟨e₀, he₀, hev⟩
          refine ⟨e₀, he₀, by rw [← hev.1, hn₁], by rw [← hev.2.1, ht₁], hp₁, ?_⟩
          rintro ⟨ho, hdn⟩
          exact hl₁ ⟨hev.2.2.1.trans ho, hev.2.2.2.2 hdn⟩
        rw [fire_log] at hd
        unfold fireRec at hd
        by_cases hdone : e.once = true ∧ e.done = true
        · rw [if_pos hdone, List.append_nil] at hd
          exact ⟨d, hd, hsub.cons i, hback⟩
        · rw [if_neg hdone, List.append_assoc] at hd
          refine ⟨(i, e.tag, p) :: d, hd, by simpa using hsub.cons₂ i, ?_⟩
          intro r hr
          rcases List.mem_cons.mp hr with rfl | hr'
          · exact ⟨e, lookupEntry_mem h, hn, rfl, rfl, hdone⟩
          · exact hback r hr'
      · simp only [dispatchLoop, h, if_neg hn]
        rcases ih s b with ⟨d, hd, hsub, hmem⟩
        exact ⟨d, hd, hsub.cons i, hmem⟩

theorem invoke_delta_mem (s : BridgeState) (n : String) (p : JValue) :
    ∃ d, (invokeEventHandler s n p).log = s.log ++ d ∧
      (d.map (fun r => r.1)).Sublist (s.handlers.map Prod.fst) ∧
      ∀ r ∈ d, ∃ e₀, (r.1, e₀) ∈ s.handlers ∧ e₀.name = n ∧
        e₀.tag = r.2.1 ∧ r.2.2 = p ∧ ¬(e₀.once = true ∧ e₀.done = true) := by
  rw [invoke_log]
  exact dispatchLoop_delta_mem n p _ s false

/-- The unsubscribe closure removes its id from the registry. -/
theorem unsub_not_mem (s : BridgeState) (i : Nat) :
    i ∉ (unsub s i).handlers.map Prod.fst := by
  intro h
  rcases List.mem_map.mp h with ⟨q, hq, rfl⟩
  exact (mem_unsub.mp hq).2 rfl

/-- The outbound channel each side's framing targets. -/
def sideChannel : Side → Channel
  | .privileged => .toUI
  | .ui => .toParent

/-- Calling `initEventHandlers` on an already-initialized process state is a
no-op. -/
theorem init_noop {q : ProcState} (h : q.initialized = true) (env : Side) :
    initEventHandlers env q = q := by
  unfold initEventHandlers
  rw [if_pos h]

theorem init_iterate (env : Side) :
    ∀ m : Nat, (fun q => initEventHandlers env q)^[m]
      (initEventHandlers env procInit) = initEventHandlers env procInit := by
  intro m
  induction m with
  | zero => rfl
  | succ m ih =>
    rw [Function.iterate_succ_apply, init_noop rfl env]
    exact ih

end Bridge

/-! ## Claim theorems -/

open Bridge

/-- C7: Transport round-trip is the identity on envelopes: an envelope
`[name, payload]` posted by the UI side's `emit` (wrapped under
`pluginMessage`) and unwrapped by the host for the privileged listener, or
posted bare by the privileged side's `emit` and wrapped by the host for the
UI listener, reaches the receiving dispatcher as exactly the same
`(eventName, payload)` pair. -/
theorem claim7_roundtrip_identity (s : BridgeState) (n : String) (payload : JValue) :
    mainOnMessage s (hostUnwrapForMain (emitMessage Side.ui n payload).body) =
      invokeEventHandler s n payload ∧
    uiOnMessage s (hostWrapForUI (emitMessage Side.privileged n payload).body) =
      Except.ok (invokeEventHandler s n payload) := by
  constructor
  · show mainOnMessage s ((getField [("pluginMessage", JValue.arr [.str n, payload])]
      "pluginMessage").getD .undef) = invokeEventHandler s n payload
    rfl
  · rfl

/-- C5: A dispatch that finds no registered entry with the dispatched name
appends exactly one warning identifying that name and leaves the registry,
counter and log unchanged; a dispatch that invokes at least one handler
appends no warning. -/
theorem claim5_no_handler_diagnostic {s : BridgeState} {n : String} (p : JValue)
    (hWF : WF s) :
    ((∀ q ∈ s.handlers, q.2.name ≠ n) →
      invokeEventHandler s n p =
        { s with warnings := s.warnings ++ [noHandlerWarning n] }) ∧
    (∀ i e, (i, e) ∈ s.handlers → e.name = n →
      (invokeEventHandler s n p).warnings = s.warnings) := by
  constructor
  · intro hno
    exact invoke_no_match p hno
  · intro i e hmem hname
    exact invoke_no_warn p hWF.nodup hmem hname

/-- C5 witness: concrete instances of both clauses. -/
theorem claim5_witness :
    (invokeEventHandler ⟨[], 0, [], []⟩ "ping" JValue.null =
      { handlers := [], currentId := 0, log := [],
        warnings := [noHandlerWarning "ping"] } : Prop) ∧
    (invokeEventHandler ⟨[(0, ⟨"ping", false, false, 7, []⟩)], 1, [], []⟩
      "ping" JValue.null).warnings = [] := by
  constructor
  · have h := @claim5_no_handler_diagnostic ⟨[], 0, [], []⟩ "ping"
      JValue.null ⟨by simp, by simp, by simp⟩
    exact h.1 (by simp)
  · have h := @claim5_no_handler_diagnostic
      ⟨[(0, ⟨"ping", false, false, 7, []⟩)], 1, [], []⟩ "ping"
      JValue.null ⟨by simp, by simp, by simp⟩
    exact h.2 0 ⟨"ping", false, false, 7, []⟩ (by simp) rfl

/-- C8: Initialization is idempotent and one-way: the first
`initEventHandlers` call from the fresh process state installs the
listener (exactly one installation), every later call — including those
made by each `createEventSystem` construction — is a no-op, iterating
initialization any number of times equals initializing once, and an
initialized state never returns to uninitialized. -/
theorem claim8_init_idempotent (env env' : Side) (q : ProcState) (m : Nat)
    (hq : q.initialized = true) :
    (initEventHandlers env procInit).initialized = true ∧
    (initEventHandlers env procInit).installCount = 1 ∧
    (initEventHandlers env procInit).installedSide = some env ∧
    initEventHandlers env' q = q ∧
    (fun r => initEventHandlers env r)^[m + 1] procInit =
      initEventHandlers env procInit ∧
    createEventSystem env' (createEventSystem env procInit) =
      createEventSystem env procInit := by
  refine ⟨rfl, rfl, rfl, init_noop hq env', ?_, ?_⟩
  · rw [Function.iterate_succ_apply]
    exact init_iterate env m
  · show initEventHandlers env' (initEventHandlers env procInit) =
      initEventHandlers env procInit
    exact init_noop rfl env'

/-- C8 witness. -/
theorem claim8_witness :
    (initEventHandlers Side.privileged procInit).initialized = true ∧
    (initEventHandlers Side.privileged procInit).installCount = 1 ∧
    (initEventHandlers Side.privileged procInit).installedSide =
      some Side.privileged ∧
    initEventHandlers Side.ui ⟨true, 1, some Side.privileged⟩ =
      ⟨true, 1, some Side.privileged⟩ ∧
    (fun r => initEventHandlers Side.privileged r)^[3] procInit =
      initEventHandlers Side.privileged procInit ∧
    createEventSystem Side.ui (createEventSystem Side.privileged procInit) =
      createEventSystem Side.privileged procInit :=
  claim8_init_idempotent Side.privileged Side.ui ⟨true, 1, some Side.privileged⟩ 2 rfl

/-- C9 counterexample: `emit` does **not** use the side detected at
initialization — it probes the environment again at call time.  With the
listener installed for the privileged side, an emit evaluated against a UI
environment posts on the parent-window channel, not the channel the
initialization-time side determines. -/
theorem claim9_counterexample :
    (initEventHandlers Side.privileged procInit).installedSide =
      some Side.privileged ∧
    (emitMessage Side.ui "example-event" JValue.null).channel ≠
      sideChannel Side.privileged := by
  exact ⟨rfl, by decide⟩

/-- C9 (amended): side detection is structural and performed both at
lazy-initialization time and again on every `emit`; whenever the
environment's side is unchanged between initialization and the call (as in
any real process, where the global execution context is fixed), the
channel and framing an emit uses agree with the side the initialization
detected. -/
theorem claim9_amended_detection_agrees (env : Side) (q : ProcState) (n : String)
    (p : JValue) (hq : q.initialized = false) :
    (initEventHandlers env q).installedSide = some env ∧
    (emitMessage env n p).channel = sideChannel env := by
  constructor
  · unfold initEventHandlers
    rw [if_neg (by rw [hq]; simp)]
  · cases env <;> rfl

/-- C9 witness. -/
theorem claim9_witness :
    (initEventHandlers Side.privileged procInit).installedSide =
      some Side.privileged ∧
    (emitMessage Side.privileged "example-event" JValue.null).channel =
      sideChannel Side.privileged :=
  claim9_amended_detection_agrees Side.privileged procInit "example-event"
    JValue.null rfl
/-- C1: for a handler registered via `on` (directly or through the
facades), once the unsubscribe function returned by that registration has
run, a subsequent dispatch — of any name — adds no invocation record for
that handler: the count of its logged invocations is unchanged. -/
theorem claim1_unsubscribed_handler_not_invoked {s : BridgeState}
    {n n' : String} {t : Nat} (hWF : WF s)
    (hfresh : ∀ q ∈ s.handlers, q.2.tag ≠ t) (U : List Nat) (p : JValue) :
    tagCount (invokeEventHandler
      (unsub (register s n false t U).1 (register s n false t U).2) n' p).log t =
      tagCount s.log t := by
  have hh : (unsub (register s n false t U).1
      (register s n false t U).2).handlers = s.handlers :=
    unsub_register hWF n false t U
  rcases invoke_delta_mem
    (unsub (register s n false t U).1 (register s n false t U).2) n' p with
    ⟨d, hd, _, hmem⟩
  rw [hd]
  have hlog : (unsub (register s n false t U).1
      (register s n false t U).2).log = s.log := rfl
  rw [hlog, tagCount_append]
  have hzero : tagCount d t = 0 := by
    unfold tagCount
    refine List.countP_eq_zero.mpr ?_
    intro r hr
    rcases hmem r hr with ⟨e₀, he₀, _, ht₀, _, _⟩
    rw [hh] at he₀
    simp only [beq_iff_eq]
    intro hrt
    exact hfresh (r.1, e₀) he₀ (by rw [ht₀, hrt])
  rw [hzero]
  omega

/-- C1 witness. -/
theorem claim1_witness :
    tagCount (invokeEventHandler
      (unsub (register ⟨[], 0, [], []⟩ "ping" false 5 []).1
        (register ⟨[], 0, [], []⟩ "ping" false 5 []).2) "ping" JValue.null).log 5 =
      tagCount ([] : List (Nat × Nat × JValue)) 5 :=
  claim1_unsubscribed_handler_not_invoked ⟨by simp, by simp, by simp⟩
    (by simp) [] JValue.null

/-- C2: a `once` handler is invoked at most once in total over any
sequence of dispatches; and when no other handler unsubscribes it, the
first dispatch of its name invokes it exactly once and every later
dispatch sequence adds no further invocation. -/
theorem claim2_once_invoked_at_most_once {s : BridgeState} {n : String}
    {t : Nat} (hWF : WF s) (hfresh : ∀ q ∈ s.handlers, q.2.tag ≠ t)
    (hlog : tagCount s.log t = 0) (U : List Nat)
    (evs : List (String × JValue)) (p : JValue) :
    tagCount (dispatchSeq evs (register s n true t U).1).log t ≤ 1 ∧
    ((∀ q ∈ s.handlers, s.currentId ∉ q.2.unsubs) → s.currentId ∉ U →
      tagCount (invokeEventHandler (register s n true t U).1 n p).log t = 1 ∧
      ∀ evs₂, tagCount (dispatchSeq evs₂
        (invokeEventHandler (register s n true t U).1 n p)).log t = 1) := by
  have hWF₁ := WF_register hWF n true t U
  have hinv₁ : OnceInv (register s n true t U).1 t s.currentId :=
    onceInv_register hfresh hlog n U
  constructor
  · have h2 := dispatchSeq_budget evs _ t s.currentId hinv₁
    exact le_trans (Nat.le_add_right _ _) h2.2
  · intro hu hself
    have hmem : (s.currentId, (⟨n, true, false, t, U⟩ : Entry)) ∈
        (register s n true t U).1.handlers := by
      rw [register_handlers]
      exact List.mem_append_right _ (List.mem_singleton.mpr rfl)
    have hu₁ : ∀ q ∈ (register s n true t U).1.handlers,
        q.1 ≠ s.currentId → s.currentId ∉ q.2.unsubs := by
      intro q hq hqi
      rw [register_handlers] at hq
      rcases List.mem_append.mp hq with h' | h'
      · exact hu q h'
      · rcases List.mem_singleton.mp h' with rfl
        exact absurd rfl hqi
    have hrec : (s.currentId, t, p) ∈
        (invokeEventHandler (register s n true t U).1 n p).log :=
      invoke_fire_rec p hWF₁ hmem rfl (by simp) hu₁
    have hone : 1 ≤ tagCount
        (invokeEventHandler (register s n true t U).1 n p).log t := by
      unfold tagCount
      have hpos : 0 < List.countP (fun r => r.2.1 == t)
          (invokeEventHandler (register s n true t U).1 n p).log :=
        List.countP_pos_iff.mpr ⟨(s.currentId, t, p), hrec, beq_self_eq_true t⟩
      omega
    have hinv₂ : OnceInv (invokeEventHandler (register s n true t U).1 n p)
        t s.currentId := invoke_budget hinv₁
    have hle : tagCount (invokeEventHandler (register s n true t U).1 n p).log t ≤ 1 :=
      le_trans (Nat.le_add_right _ _) hinv₂.2
    refine ⟨by omega, ?_⟩
    intro evs₂
    have hmono := dispatchSeq_tagCount_le evs₂
      (invokeEventHandler (register s n true t U).1 n p) t
    have hinv₃ := dispatchSeq_budget evs₂ _ t s.currentId hinv₂
    have hle₂ : tagCount (dispatchSeq evs₂
        (invokeEventHandler (register s n true t U).1 n p)).log t ≤ 1 :=
      le_trans (Nat.le_add_right _ _) hinv₃.2
    omega

/-- C2 witness. -/
theorem claim2_witness :
    tagCount (dispatchSeq [("ping", JValue.null)]
      (register ⟨[], 0, [], []⟩ "ping" true 5 []).1).log 5 ≤ 1 ∧
    ((∀ q ∈ ([] : List (Nat × Entry)), 0 ∉ q.2.unsubs) → 0 ∉ ([] : List Nat) →
      tagCount (invokeEventHandler (register ⟨[], 0, [], []⟩ "ping" true 5 []).1
        "ping" (JValue.bool true)).log 5 = 1 ∧
      ∀ evs₂, tagCount (dispatchSeq evs₂
        (invokeEventHandler (register ⟨[], 0, [], []⟩ "ping" true 5 []).1
          "ping" (JValue.bool true))).log 5 = 1) :=
  claim2_once_invoked_at_most_once ⟨by simp, by simp, by simp⟩ (by simp)
    (by simp [tagCount]) [] [("ping", JValue.null)] (JValue.bool true)
/-- C3: dispatch preserves registration order: the invocation records a
single dispatch appends carry strictly ascending registration ids (a
subsequence of the registry snapshot), so of two handlers registered for
the same name — here under ids `currentId` and `currentId + 1` — the
earlier-registered one is invoked first, and with no interfering
unsubscription both are invoked. -/
theorem claim3_registration_order {s : BridgeState} {n : String}
    {t₁ t₂ : Nat} {U₁ U₂ : List Nat} (hWF : WF s)
    (hu : ∀ q ∈ s.handlers, s.currentId ∉ q.2.unsubs ∧
      s.currentId + 1 ∉ q.2.unsubs)
    (h12 : s.currentId + 1 ∉ U₁) (h21 : s.currentId ∉ U₂) (p : JValue) :
    ∃ d, (invokeEventHandler
        (register (register s n false t₁ U₁).1 n false t₂ U₂).1 n p).log
        = s.log ++ d ∧
      (s.currentId, t₁, p) ∈ d ∧ (s.currentId + 1, t₂, p) ∈ d ∧
      (d.map (fun r => r.1)).Sorted (· < ·) ∧
      ∀ a b : Fin (d.map (fun r => r.1)).length,
        (d.map (fun r => r.1)).get a = s.currentId →
        (d.map (fun r => r.1)).get b = s.currentId + 1 → a.1 < b.1 := by
  have hWF₁ := WF_register hWF n false t₁ U₁
  have hWF₂ := WF_register hWF₁ n false t₂ U₂
  have hmem₁ : (s.currentId, (⟨n, false, false, t₁, U₁⟩ : Entry)) ∈
      (register (register s n false t₁ U₁).1 n false t₂ U₂).1.handlers := by
    rw [register_handlers, register_handlers]
    simp
  have hmem₂ : (s.currentId + 1, (⟨n, false, false, t₂, U₂⟩ : Entry)) ∈
      (register (register s n false t₁ U₁).1 n false t₂ U₂).1.handlers := by
    rw [register_handlers]
    simp [register_currentId]
  have hu₁ : ∀ q ∈ (register (register s n false t₁ U₁).1 n false t₂ U₂).1.handlers,
      q.1 ≠ s.currentId → s.currentId ∉ q.2.unsubs := by
    intro q hq hqi
    rw [register_handlers, register_handlers] at hq
    rcases List.mem_append.mp hq with hq' | hq'
    · rcases List.mem_append.mp hq' with hq'' | hq''
      · exact (hu q hq'').1
      · rcases List.mem_singleton.mp hq'' with rfl
        exact absurd rfl hqi
    · rcases List.mem_singleton.mp hq' with rfl
      exact h21
  have hu₂ : ∀ q ∈ (register (register s n false t₁ U₁).1 n false t₂ U₂).1.handlers,
      q.1 ≠ s.currentId + 1 → s.currentId + 1 ∉ q.2.unsubs := by
    intro q hq hqi
    rw [register_handlers, register_handlers] at hq
    rcases List.mem_append.mp hq with hq' | hq'
    · rcases List.mem_append.mp hq' with hq'' | hq''
      · exact (hu q hq'').2
      · rcases List.mem_singleton.mp hq'' with rfl
        exact h12
    · rcases List.mem_singleton.mp hq' with rfl
      exact absurd rfl hqi
  have hrec₁ : (s.currentId, t₁, p) ∈ (invokeEventHandler
      (register (register s n false t₁ U₁).1 n false t₂ U₂).1 n p).log :=
    invoke_fire_rec p hWF₂ hmem₁ rfl (by simp) hu₁
  have hrec₂ : (s.currentId + 1, t₂, p) ∈ (invokeEventHandler
      (register (register s n false t₁ U₁).1 n false t₂ U₂).1 n p).log :=
    invoke_fire_rec p hWF₂ hmem₂ rfl (by simp) hu₂
  rcases invoke_delta_mem
    (register (register s n false t₁ U₁).1 n false t₂ U₂).1 n p with
    ⟨d, hd, hsub, _⟩
  have hlog : (register (register s n false t₁ U₁).1 n false t₂ U₂).1.log
      = s.log := rfl
  have hfresh : ∀ r ∈ s.log, r.1 < s.currentId := hWF.2.2
  have hin₁ : (s.currentId, t₁, p) ∈ d := by
    rw [hd, hlog] at hrec₁
    rcases List.mem_append.mp hrec₁ with h' | h'
    · exact absurd (hfresh _ h') (by simp)
    · exact h'
  have hin₂ : (s.currentId + 1, t₂, p) ∈ d := by
    rw [hd, hlog] at hrec₂
    rcases List.mem_append.mp hrec₂ with h' | h'
    · have := hfresh _ h'
      simp only at this
      omega
    · exact h'
  have hsorted : (d.map (fun r => r.1)).Sorted (· < ·) := hWF₂.1.sublist hsub
  refine ⟨d, by rw [hd, hlog], hin₁, hin₂, hsorted, ?_⟩
  intro a b ha hb
  rcases Nat.lt_trichotomy a.1 b.1 with h | h | h
  · exact h
  · exfalso
    have hba : a = b := Fin.ext h
    rw [← hba, ha] at hb
    omega
  · exfalso
    have := List.pairwise_iff_get.mp hsorted b a h
    rw [ha, hb] at this
    omega

/-- C3 witness. -/
theorem claim3_witness :
    ∃ d, (invokeEventHandler
        (register (register ⟨[], 0, [], []⟩ "ping" false 1 []).1
          "ping" false 2 []).1 "ping" JValue.null).log
        = ([] : List (Nat × Nat × JValue)) ++ d ∧
      (0, 1, JValue.null) ∈ d ∧ (0 + 1, 2, JValue.null) ∈ d ∧
      (d.map (fun r => r.1)).Sorted (· < ·) ∧
      ∀ a b : Fin (d.map (fun r => r.1)).length,
        (d.map (fun r => r.1)).get a = 0 →
        (d.map (fun r => r.1)).get b = 0 + 1 → a.1 < b.1 :=
  claim3_registration_order ⟨by simp, by simp, by simp⟩ (by simp)
    (by simp) (by simp) JValue.null

/-- C4: unsubscribe during an active pass is safe in both directions: a
handler that unsubscribes itself (already visited) does not prevent the
later-registered handlers from running in the same pass; a not-yet-visited
handler unsubscribed mid-pass by an earlier handler is skipped; and no
entry is invoked twice in one pass (the delta's ids are duplicate-free).
Here handler 1 unsubscribes itself, handler 2 unsubscribes handler 3. -/
theorem claim4_unsub_during_dispatch {s : BridgeState} {n : String}
    (hWF : WF s) (t₁ t₂ t₃ : Nat) (p : JValue)
    (hu : ∀ q ∈ s.handlers, s.currentId ∉ q.2.unsubs ∧
      s.currentId + 1 ∉ q.2.unsubs ∧ s.currentId + 2 ∉ q.2.unsubs) :
    ∃ d, (invokeEventHandler (register (register (register s n false t₁
        [s.currentId]).1 n false t₂ [s.currentId + 2]).1 n false t₃ []).1 n p).log
      = s.log ++ d ∧
      (s.currentId, t₁, p) ∈ d ∧
      (s.currentId + 1, t₂, p) ∈ d ∧
      (∀ r ∈ d, r.1 ≠ s.currentId + 2) ∧
      (d.map (fun r => r.1)).Nodup := by
  have hWF₁ := WF_register hWF n false t₁ [s.currentId]
  have hWF₂ := WF_register hWF₁ n false t₂ [s.currentId + 2]
  have hWF₃ := WF_register hWF₂ n false t₃ []
  have hmem₁ : (s.currentId, (⟨n, false, false, t₁, [s.currentId]⟩ : Entry)) ∈
      (register (register (register s n false t₁ [s.currentId]).1 n false t₂
        [s.currentId + 2]).1 n false t₃ []).1.handlers := by
    rw [register_handlers, register_handlers, register_handlers]
    simp
  have hmem₂ : (s.currentId + 1,
      (⟨n, false, false, t₂, [s.currentId + 2]⟩ : Entry)) ∈
      (register (register (register s n false t₁ [s.currentId]).1 n false t₂
        [s.currentId + 2]).1 n false t₃ []).1.handlers := by
    rw [register_handlers, register_handlers]
    simp [register_currentId]
  have hu₁ : ∀ q ∈ (register (register (register s n false t₁ [s.currentId]).1
      n false t₂ [s.currentId + 2]).1 n false t₃ []).1.handlers,
      q.1 ≠ s.currentId → s.currentId ∉ q.2.unsubs := by
    intro q hq hqi
    rw [register_handlers, register_handlers, register_handlers] at hq
    rcases List.mem_append.mp hq with hq' | hq'
    · rcases List.mem_append.mp hq' with hq'' | hq''
      · rcases List.mem_append.mp hq'' with hq₃ | hq₃
        · exact (hu q hq₃).1
        · rcases List.mem_singleton.mp hq₃ with rfl
          exact absurd rfl hqi
      · rcases List.mem_singleton.mp hq'' with rfl
        simp only [List.mem_singleton]
        omega
    · rcases List.mem_singleton.mp hq' with rfl
      simp
  have hu₂ : ∀ q ∈ (register (register (register s n false t₁ [s.currentId]).1
      n false t₂ [s.currentId + 2]).1 n false t₃ []).1.handlers,
      q.1 ≠ s.currentId + 1 → s.currentId + 1 ∉ q.2.unsubs := by
    intro q hq hqi
    rw [register_handlers, register_handlers, register_handlers] at hq
    rcases List.mem_append.mp hq with hq' | hq'
    · rcases List.mem_append.mp hq' with hq'' | hq''
      · rcases List.mem_append.mp hq'' with hq₃ | hq₃
        · exact (hu q hq₃).2.1
        · rcases List.mem_singleton.mp hq₃ with rfl
          simp only [List.mem_singleton]
          omega
      · rcases List.mem_singleton.mp hq'' with rfl
        exact absurd rfl hqi
    · rcases List.mem_singleton.mp hq' with rfl
      simp
  have hrec₁ : (s.currentId, t₁, p) ∈ (invokeEventHandler
      (register (register (register s n false t₁ [s.currentId]).1 n false t₂
        [s.currentId + 2]).1 n false t₃ []).1 n p).log :=
    invoke_fire_rec p hWF₃ hmem₁ rfl (by simp) hu₁
  have hrec₂ : (s.currentId + 1, t₂, p) ∈ (invokeEventHandler
      (register (register (register s n false t₁ [s.currentId]).1 n false t₂
        [s.currentId + 2]).1 n false t₃ []).1 n p).log :=
    invoke_fire_rec p hWF₃ hmem₂ rfl (by simp) hu₂
  have hskip := invoke_skip p hWF₃ hmem₂ rfl (by simp) hu₂
    (List.mem_singleton.mpr rfl) (by omega)
  rcases invoke_delta_mem (register (register (register s n false t₁
      [s.currentId]).1 n false t₂ [s.currentId + 2]).1 n false t₃ []).1 n p with
    ⟨d, hd, hsub, _⟩
  have hlog : (register (register (register s n false t₁ [s.currentId]).1
      n false t₂ [s.currentId + 2]).1 n false t₃ []).1.log = s.log := rfl
  have hfresh : ∀ r ∈ s.log, r.1 < s.currentId := hWF.2.2
  have hin₁ : (s.currentId, t₁, p) ∈ d := by
    rw [hd, hlog] at hrec₁
    rcases List.mem_append.mp hrec₁ with h' | h'
    · exact absurd (hfresh _ h') (by simp)
    · exact h'
  have hin₂ : (s.currentId + 1, t₂, p) ∈ d := by
    rw [hd, hlog] at hrec₂
    rcases List.mem_append.mp hrec₂ with h' | h'
    · have := hfresh _ h'
      simp only at this
      omega
    · exact h'
  refine ⟨d, by rw [hd, hlog], hin₁, hin₂, ?_, ?_⟩
  · intro r hr hri
    have hrlog : r ∈ (invokeEventHandler (register (register (register s n
        false t₁ [s.currentId]).1 n false t₂ [s.currentId + 2]).1 n false t₃
        []).1 n p).log := by
      rw [hd]
      exact List.mem_append_right _ hr
    have := hskip r hrlog hri
    rw [hlog] at this
    have := hfresh r this
    omega
  · have hsorted : (d.map (fun r => r.1)).Sorted (· < ·) := hWF₃.1.sublist hsub
    exact hsorted.imp Nat.ne_of_lt

/-- C4 witness. -/
theorem claim4_witness :
    ∃ d, (invokeEventHandler (register (register (register ⟨[], 0, [], []⟩
        "ping" false 1 [0]).1 "ping" false 2 [0 + 2]).1 "ping" false 3 []).1
        "ping" JValue.null).log
      = ([] : List (Nat × Nat × JValue)) ++ d ∧
      (0, 1, JValue.null) ∈ d ∧
      (0 + 1, 2, JValue.null) ∈ d ∧
      (∀ r ∈ d, r.1 ≠ 0 + 2) ∧
      (d.map (fun r => r.1)).Nodup :=
  claim4_unsub_during_dispatch ⟨by simp, by simp, by simp⟩ 1 2 3
    JValue.null (by simp)
/-- C10: after a `once` handler has fired, its wrapping registry entry
remains registered (with the wrapper's flag set); a later dispatch of the
name adds no further invocation record for that entry and emits no
no-handler warning (the inert wrapper still counts as a match); the
unsubscribe function does remove the entry. -/
theorem claim10_once_entry_persists {s : BridgeState} {n : String} {t : Nat}
    (hWF : WF s) (U : List Nat)
    (hu : ∀ q ∈ s.handlers, s.currentId ∉ q.2.unsubs) (hself : s.currentId ∉ U)
    (p p₂ : JValue) :
    (s.currentId, (⟨n, true, true, t, U⟩ : Entry)) ∈
      (invokeEventHandler (register s n true t U).1 n p).handlers ∧
    (∀ r ∈ (invokeEventHandler
        (invokeEventHandler (register s n true t U).1 n p) n p₂).log,
      r.1 = s.currentId →
        r ∈ (invokeEventHandler (register s n true t U).1 n p).log) ∧
    (invokeEventHandler (invokeEventHandler (register s n true t U).1 n p)
        n p₂).warnings =
      (invokeEventHandler (register s n true t U).1 n p).warnings ∧
    s.currentId ∉ (unsub (invokeEventHandler (register s n true t U).1 n p)
      s.currentId).handlers.map Prod.fst := by
  have hWF₁ := WF_register hWF n true t U
  have hmem : (s.currentId, (⟨n, true, false, t, U⟩ : Entry)) ∈
      (register s n true t U).1.handlers := by
    rw [register_handlers]
    exact List.mem_append_right _ (List.mem_singleton.mpr rfl)
  have hu₁ : ∀ q ∈ (register s n true t U).1.handlers,
      q.1 ≠ s.currentId → s.currentId ∉ q.2.unsubs := by
    intro q hq hqi
    rw [register_handlers] at hq
    rcases List.mem_append.mp hq with h' | h'
    · exact hu q h'
    · rcases List.mem_singleton.mp h' with rfl
      exact absurd rfl hqi
  have hdone : (s.currentId, (⟨n, true, true, t, U⟩ : Entry)) ∈
      (invokeEventHandler (register s n true t U).1 n p).handlers :=
    invoke_once_step p hWF₁ hmem rfl rfl rfl hu₁ hself
  have hWF₂ := WF_invoke hWF₁ n p
  refine ⟨hdone, ?_, ?_, unsub_not_mem _ _⟩
  · intro r hr hri
    rcases invoke_log_mem hr with h' | ⟨e₀, he₀, _, _, _, hl₀⟩
    · exact h'
    · exfalso
      rw [hri] at he₀
      have := mem_entry_unique hWF₂.nodup he₀ hdone
      subst this
      exact hl₀ ⟨rfl, rfl⟩
  · exact invoke_no_warn p₂ hWF₂.nodup hdone rfl

/-- C10 witness. -/
theorem claim10_witness :
    (0, (⟨"ping", true, true, 5, []⟩ : Entry)) ∈
      (invokeEventHandler (register ⟨[], 0, [], []⟩ "ping" true 5 []).1
        "ping" JValue.null).handlers ∧
    (∀ r ∈ (invokeEventHandler
        (invokeEventHandler (register ⟨[], 0, [], []⟩ "ping" true 5 []).1
          "ping" JValue.null) "ping" (JValue.num 3)).log,
      r.1 = 0 →
        r ∈ (invokeEventHandler (register ⟨[], 0, [], []⟩ "ping" true 5 []).1
          "ping" JValue.null).log) ∧
    (invokeEventHandler (invokeEventHandler
        (register ⟨[], 0, [], []⟩ "ping" true 5 []).1 "ping" JValue.null)
        "ping" (JValue.num 3)).warnings =
      (invokeEventHandler (register ⟨[], 0, [], []⟩ "ping" true 5 []).1
        "ping" JValue.null).warnings ∧
    0 ∉ (unsub (invokeEventHandler (register ⟨[], 0, [], []⟩ "ping" true 5 []).1
      "ping" JValue.null) 0).handlers.map Prod.fst :=
  claim10_once_entry_persists ⟨by simp, by simp, by simp⟩ [] (by simp)
    (by simp) JValue.null (JValue.num 3)

/-- C6 counterexample: two malformed inbound messages that are not
silently discarded.  A UI-side message whose `data` is `null` lacks the
reserved `pluginMessage` wrapper field, yet the listener throws a
`TypeError` (property access `event.data.pluginMessage` on nullish data)
instead of returning.  A privileged-side message `["evt"]` is not an
ordered pair, yet it passes validation and is dispatched, here appending
the no-handler diagnostic instead of being discarded with no diagnostic
and the state unchanged. -/
theorem claim6_counterexample :
    uiOnMessage ⟨[], 0, [], []⟩ JValue.null = Except.error () ∧
    mainOnMessage ⟨[], 0, [], []⟩ (JValue.arr [JValue.str "evt"]) =
      { handlers := [], currentId := 0, log := [],
        warnings := [noHandlerWarning "evt"] } :=
  ⟨rfl, rfl⟩

/-- C6 (amended): the listeners validate only that the message (after
UI-side unwrapping) is an array whose first element is a string — not
that it is a 2-element pair.  Accordingly: (a) on the UI side a message
whose `data` is `null` or `undefined` makes the listener throw a
`TypeError` instead of returning; (b) on either side a sequence whose
first element is a string is dispatched even when it is not an ordered
pair — a 1-element sequence dispatches with payload `undefined`, a longer
sequence dispatches its second element and ignores the rest — and such a
dispatch may append the no-handler diagnostic; (c) every remaining
malformed shape (non-array, empty array, array with a non-string first
element, UI message whose unwrapped `pluginMessage` field is missing or
not such an array) is discarded silently with the bridge state unchanged:
no handler dispatched, no diagnostic appended. -/
theorem claim6_amended_malformed_discarded (s : BridgeState) (data args : JValue) :
    (data = JValue.null ∨ data = JValue.undef →
      uiOnMessage s data = Except.error ()) ∧
    (data ≠ JValue.null → data ≠ JValue.undef →
      (∀ n rest, jsGetProp data "pluginMessage" ≠
        Except.ok (JValue.arr (JValue.str n :: rest))) →
      uiOnMessage s data = Except.ok s) ∧
    (∀ n rest, jsGetProp data "pluginMessage" =
        Except.ok (JValue.arr (JValue.str n :: rest)) →
      uiOnMessage s data =
        Except.ok (invokeEventHandler s n (rest.headD JValue.undef))) ∧
    ((∀ n rest, args ≠ JValue.arr (JValue.str n :: rest)) →
      mainOnMessage s args = s) ∧
    (∀ n rest, args = JValue.arr (JValue.str n :: rest) →
      mainOnMessage s args = invokeEventHandler s n (rest.headD JValue.undef)) := by
  refine ⟨?_, ?_, ?_, ?_, ?_⟩
  · rintro (rfl | rfl) <;> rfl
  · intro h1 h2 hui
    cases data with
    | null => exact absurd rfl h1
    | undef => exact absurd rfl h2
    | bool b => rfl
    | num k => rfl
    | str st => rfl
    | arr xs => rfl
    | obj fields =>
      have hgp : jsGetProp (JValue.obj fields) "pluginMessage" =
          Except.ok ((getField fields "pluginMessage").getD JValue.undef) := rfl
      cases hpm : (getField fields "pluginMessage").getD JValue.undef with
      | undef => simp [uiOnMessage, hgp, hpm]
      | null => simp [uiOnMessage, hgp, hpm]
      | bool b => simp [uiOnMessage, hgp, hpm]
      | num k => simp [uiOnMessage, hgp, hpm]
      | str st => simp [uiOnMessage, hgp, hpm]
      | obj fs => simp [uiOnMessage, hgp, hpm]
      | arr xs =>
        cases xs with
        | nil => simp [uiOnMessage, hgp, hpm]
        | cons x rest =>
          cases x with
          | str nm =>
            exfalso
            apply hui nm rest
            rw [hgp, hpm]
          | undef => simp [uiOnMessage, hgp, hpm]
          | null => simp [uiOnMessage, hgp, hpm]
          | bool b => simp [uiOnMessage, hgp, hpm]
          | num k => simp [uiOnMessage, hgp, hpm]
          | arr ys => simp [uiOnMessage, hgp, hpm]
          | obj fs => simp [uiOnMessage, hgp, hpm]
  · intro n rest h
    simp [uiOnMessage, h]
  · intro hmain
    cases args with
    | undef => rfl
    | null => rfl
    | bool b => rfl
    | num k => rfl
    | str st => rfl
    | obj fields => rfl
    | arr xs =>
      cases xs with
      | nil => rfl
      | cons x rest =>
        cases x with
        | str nm => exact absurd rfl (hmain nm rest)
        | undef => rfl
        | null => rfl
        | bool b => rfl
        | num k => rfl
        | arr ys => rfl
        | obj fs => rfl
  · intro n rest h
    subst h
    rfl

/-- C6 witness: a numeric UI message and a headless-array privileged
message are discarded with the state unchanged; a 3-element privileged
envelope and a 1-element UI envelope — both malformed as pairs — are
dispatched, with extra elements ignored and the missing payload read as
`undefined`. -/
theorem claim6_witness :
    uiOnMessage ⟨[], 0, [], []⟩ (JValue.num 5) = Except.ok ⟨[], 0, [], []⟩ ∧
    mainOnMessage ⟨[], 0, [], []⟩ (JValue.arr [JValue.num 1]) =
      ⟨[], 0, [], []⟩ ∧
    mainOnMessage ⟨[], 0, [], []⟩
      (JValue.arr [JValue.str "evt", JValue.null, JValue.bool true]) =
      invokeEventHandler ⟨[], 0, [], []⟩ "evt"
        ([JValue.null, JValue.bool true].headD JValue.undef) ∧
    uiOnMessage ⟨[], 0, [], []⟩
      (JValue.obj [("pluginMessage", JValue.arr [JValue.str "evt"])]) =
      Except.ok (invokeEventHandler ⟨[], 0, [], []⟩ "evt"
        (([] : List JValue).headD JValue.undef)) :=
  ⟨(claim6_amended_malformed_discarded ⟨[], 0, [], []⟩ (JValue.num 5)
      JValue.undef).2.1
      (fun h => JValue.noConfusion h) (fun h => JValue.noConfusion h)
      (fun n rest h => JValue.noConfusion (Except.ok.inj h)),
   (claim6_amended_malformed_discarded ⟨[], 0, [], []⟩ JValue.undef
      (JValue.arr [JValue.num 1])).2.2.2.1
      (fun n rest h => by
        have h2 := (JValue.arr.injEq _ _).mp h
        have h3 := (List.cons.injEq _ _ _ _).mp h2
        exact JValue.noConfusion h3.1),
   (claim6_amended_malformed_discarded ⟨[], 0, [], []⟩ JValue.undef
      (JValue.arr [JValue.str "evt", JValue.null, JValue.bool true])).2.2.2.2
      "evt" [JValue.null, JValue.bool true] rfl,
   (claim6_amended_malformed_discarded ⟨[], 0, [], []⟩
      (JValue.obj [("pluginMessage", JValue.arr [JValue.str "evt"])])
      JValue.undef).2.2.1
      "evt" [] rfl⟩
